import Mathlib

/-!
Verification of the spicelib SPICE-netlist editor core
(`src/spicelib/editor/spice_editor.py`, `src/spicelib/editor/base_editor.py`).

Lines of text are modelled as `List Char` (one Python `str` character per
entry), a netlist as a list of entries where an entry is either a raw text
line or a nested sub-circuit (`SpiceCircuit.netlist`).  Python exceptions are
modelled with `Except PyErr`.  Python's shared line iterator in
`SpiceCircuit._add_lines` is modelled by returning the unconsumed suffix of
the input line list; the recursion is driven by a fuel argument that is
always instantiated with the length of the remaining input, which is an upper
bound on the number of lines any call chain can consume.
-/

deriving instance DecidableEq for Except

namespace Spicelib

/-- A Python string, one `Char` per Python character. -/
abbrev Str := List Char

/-- The characters of a Lean string literal, used to write concrete lines. -/
def str (s : String) : Str := s.data

/-- Python exceptions raised by the modelled code paths. -/
inductive PyErr where
  /-- `ComponentNotFoundError` -/
  | componentNotFound
  /-- `ParameterNotFoundError` -/
  | parameterNotFound
  /-- `UnrecognizedSyntaxError` -/
  | unrecognizedSyntax
  /-- `SyntaxError` (raised by `reset_netlist` on a missing `.END`) -/
  | syntaxErr
  /-- `TypeError` raised by `'... "%s" of file %s' % line` in
  `get_line_command`: the format string has two placeholders but `line` is a
  single `str`, so CPython raises `TypeError: not enough arguments for format
  string` before any `SyntaxError` is constructed. -/
  | formatTypeError
  /-- `TypeError` from applying a string operation or a regular expression to
  a `SpiceCircuit` object, or from slicing `None`. -/
  | typeErr
  /-- `AssertionError` (first line of a netlist is a `+` continuation) -/
  | assertionErr
  /-- `MissingExpectedClauseError` -/
  | missingExpectedClause
  /-- `RuntimeError` -/
  | runtimeErr
  /-- `FileNotFoundError` from `open` on a path that names no file
  (in particular `Path('')`, the `circuit_file` of a nested `SpiceCircuit`). -/
  | fileNotFound (path : Str)
  /-- `ValueError` (malformed numeric literal passed to `float`) -/
  | valueErr
  /-- `IndexError` (`component[0]` on an empty reference, or
  `m.start('value')` on a match of a pattern with no `value` group) -/
  | indexErr
  /-- `KeyError` (`m.groupdict()['value']` when the pattern defines no
  `value` group) -/
  | keyErr
  /-- `NotImplementedError` (no pattern registered for a prefix, or
  hierarchical access through `get_component_info`) -/
  | notImplemented
  deriving DecidableEq, Repr

/-- Model of Python `str.upper` on a single character.  It is exact on ASCII
and on the non-ASCII characters that appear in `REPLACE_REGXES` keys
(`ã`, `ø`, `ö`) and the micro sign; on other characters it is the identity.
(Python's full Unicode case mapping, e.g. `ß → SS`, is outside the character
ranges any claim exercises.) -/
def pyUpper (c : Char) : Char :=
  if 'a' ≤ c ∧ c ≤ 'z' then Char.ofNat (c.toNat - 32)
  else if c = 'ã' then 'Ã'
  else if c = 'ø' then 'Ø'
  else if c = 'ö' then 'Ö'
  else if c = 'µ' then 'Μ'
  else c

/-- Model of Python `str.lower` on a single character (ASCII exact). -/
def pyLower (c : Char) : Char :=
  if 'A' ≤ c ∧ c ≤ 'Z' then Char.ofNat (c.toNat + 32)
  else if c = 'Ã' then 'ã'
  else if c = 'Ø' then 'ø'
  else if c = 'Ö' then 'ö'
  else c

/-- Characters of Python's `\s` class (ASCII part). -/
def isPyWs (c : Char) : Bool :=
  c = ' ' ∨ c = '\t' ∨ c = '\n' ∨ c = '\r' ∨ c = '\x0b' ∨ c = '\x0c'

/-- ASCII decimal digit. -/
def isDigitCh (c : Char) : Bool := '0' ≤ c ∧ c ≤ '9'

/-- Characters of the regex `\w` class (ASCII part: letters, digits, `_`). -/
def isWordCh (c : Char) : Bool :=
  ('a' ≤ c ∧ c ≤ 'z') ∨ ('A' ≤ c ∧ c ≤ 'Z') ∨ isDigitCh c ∨ c = '_'

/-- The keys of `REPLACE_REGXES`: the element-kind tags of the pattern
table, exactly as in the source dictionary. -/
def replace_regxes_keys : List Char :=
  ['A', 'B', 'C', 'D', 'E', 'F', 'G', 'H', 'I', 'J', 'K', 'L', 'M', 'O',
   'Q', 'R', 'S', 'T', 'U', 'V', 'W', 'X', 'Z', '@', 'Ã', '¥', '€', '£',
   'Ø', '×', 'Ö']

/-- Model of `get_line_command` on a `str` argument.  Returns `.ok none` when
the line has no character outside space/tab (the Python function falls off
the end of its loop and returns `None`). -/
def get_line_command_str : Str → Except PyErr (Option Str)
  | [] => .ok none
  | c :: rest =>
    if c = ' ' ∨ c = '\t' then get_line_command_str rest
    else
      let u := pyUpper c
      if u ∈ replace_regxes_keys then .ok (some [u])
      else if u = '+' then .ok (some ['+'])
      else if u = '#' ∨ u = ';' ∨ u = '*' ∨ u = '\n' ∨ u = '\r' then
        .ok (some ['*'])
      else if u = '.' then
        .ok (some ((c :: rest.takeWhile
          (fun d => ¬ (d = ' ' ∨ d = '\t' ∨ d = '\r' ∨ d = '\n'))).map pyUpper))
      else .error .formatTypeError

/-- One entry of a `SpiceCircuit.netlist`: either a raw text line or a nested
`SpiceCircuit` (whose own `netlist` is the carried list). -/
inductive Entry where
  | line (s : Str)
  | sub (ns : List Entry)

mutual
/-- Decidable equality for netlist entries. -/
def entryDecEq : (a b : Entry) → Decidable (a = b)
  | .line a, .line b =>
    match decEq a b with
    | isTrue h => isTrue (h ▸ rfl)
    | isFalse h => isFalse (fun hh => by cases hh; exact h rfl)
  | .line _, .sub _ => isFalse (fun hh => Entry.noConfusion hh)
  | .sub _, .line _ => isFalse (fun hh => Entry.noConfusion hh)
  | .sub xs, .sub ys =>
    match entryListDecEq xs ys with
    | isTrue h => isTrue (h ▸ rfl)
    | isFalse h => isFalse (fun hh => by cases hh; exact h rfl)

/-- Decidable equality for entry lists. -/
def entryListDecEq : (a b : List Entry) → Decidable (a = b)
  | [], [] => isTrue rfl
  | [], _ :: _ => isFalse (fun hh => List.noConfusion hh)
  | _ :: _, [] => isFalse (fun hh => List.noConfusion hh)
  | x :: xs, y :: ys =>
    match entryDecEq x y, entryListDecEq xs ys with
    | isTrue h1, isTrue h2 => isTrue (h1 ▸ h2 ▸ rfl)
    | isFalse h1, _ => isFalse (fun hh => by cases hh; exact h1 rfl)
    | _, isFalse h2 => isFalse (fun hh => by cases hh; exact h2 rfl)
end

instance : DecidableEq Entry := entryDecEq

/-- `get_line_command` on a netlist entry (`SpiceCircuit` arguments are
classified `.SUBCKT`). -/
def get_line_command : Entry → Except PyErr (Option Str)
  | .line l => get_line_command_str l
  | .sub _ => .ok (some (str ".SUBCKT"))

/-- Model of `_first_token_upped`: skip leading space/tab, take the maximal
run of non-space/tab characters, uppercased. -/
def _first_token_upped (l : Str) : Str :=
  ((l.dropWhile (fun c => c = ' ' ∨ c = '\t')).takeWhile
    (fun c => ¬ (c = ' ' ∨ c = '\t'))).map pyUpper

/-- Model of `_get_line_starting_with`: index of the first string entry whose
first token equals `substr` (both uppercased); `ComponentNotFoundError` when
none does.  Sub-circuit entries are skipped. -/
def _get_line_starting_with (substr : Str) : List Entry → Except PyErr Nat
  | [] => .error .componentNotFound
  | .sub _ :: rest =>
    (_get_line_starting_with substr rest).map (· + 1)
  | .line l :: rest =>
    if _first_token_upped l = substr.map pyUpper then .ok 0
    else (_get_line_starting_with substr rest).map (· + 1)

/-- Model of `SpiceCircuit._add_lines`.  The result is the netlist built so
far, the `finished` flag, and the lines the shared iterator has not yet
consumed.  `fuel` bounds the recursion; every run instantiates it with the
length of the remaining input, which suffices because each recursive call
consumes at least one line. -/
def _add_lines : Nat → List Entry → List Str →
    Except PyErr (List Entry × Bool × List Str)
  | 0, acc, ls => .ok (acc, false, ls)
  | _ + 1, acc, [] => .ok (acc, false, [])
  | fuel + 1, acc, l :: ls => do
    match ← get_line_command_str l with
    | some c =>
      if c = str ".SUBCKT" then
        match ← _add_lines fuel [Entry.line l] ls with
        | (sub, true, rest) => _add_lines fuel (acc ++ [Entry.sub sub]) rest
        | (_, false, rest) => .ok (acc, false, rest)
      else if c = ['+'] then
        match acc.getLast? with
        | none => .error .assertionErr
        | some (.line last) =>
          _add_lines fuel (acc.dropLast ++ [Entry.line (last ++ l)]) ls
        | some (.sub _) => .error .typeErr
      else
        if c.take 4 = str ".END" then .ok (acc ++ [Entry.line l], true, ls)
        else _add_lines fuel (acc ++ [Entry.line l]) ls
    | none => .error .typeErr

/-- `_add_lines` with its canonical fuel (the length of the input). -/
def _add_lines_run (acc : List Entry) (ls : List Str) :
    Except PyErr (List Entry × Bool × List Str) :=
  _add_lines ls.length acc ls

mutual
/-- The text a netlist entry contributes to `write_lines` output. -/
def entry_chars : Entry → Str
  | .line l => l
  | .sub ns => write_lines_list ns

/-- Model of `SpiceCircuit.write_lines`: concatenation of all entries,
depth-first. -/
def write_lines_list : List Entry → Str
  | [] => []
  | e :: es => entry_chars e ++ write_lines_list es
end

/-- The clone registry `SpiceEditor.modified_subcircuits`, an
insertion-ordered mapping from instantiation-path prefix to cloned tree. -/
abbrev Registry := List (Str × List Entry)

/-- The text `save_netlist` writes for the registry's values, in insertion
order. -/
def registry_chars : Registry → Str
  | [] => []
  | (_, ns) :: rest => write_lines_list ns ++ registry_chars rest

/-- `line.upper().startswith(".END")`. -/
def starts_with_end_upper (l : Str) : Bool :=
  (str ".END").isPrefixOf (l.map pyUpper)

/-- Model of `SpiceEditor.save_netlist`: writes every entry in order; before
any top-level string line whose uppercase form starts with `.END`, writes all
registered modified sub-circuits. -/
def save_netlist (ns : List Entry) (reg : Registry) : Str :=
  match ns with
  | [] => []
  | .sub c :: rest => write_lines_list c ++ save_netlist rest reg
  | .line l :: rest =>
    (if starts_with_end_upper l then registry_chars reg ++ l else l) ++
      save_netlist rest reg

/-- Model of `SpiceEditor.reset_netlist` (existing file, `create_blank =
False`) on the decoded lines of the netlist file: clears the netlist,
rebuilds it with `_add_lines`, and raises `SyntaxError` when the build does
not report `finished`. -/
def reset_netlist (ls : List Str) : Except PyErr (List Entry) := do
  match ← _add_lines_run [] ls with
  | (ns, true, _) => .ok ns
  | (_, false, _) => .error .syntaxErr

/-! ### A small backtracking regular-expression engine

The relevant entries of `REPLACE_REGXES`, together with `subckt_regex`,
`lib_inc_regex`, `SUBCKT_CLAUSE_FIND` and `PARAM_REGEX`, are embedded as
abstract syntax trees and interpreted by a Python-compatible backtracking
matcher (leftmost match, greedy/lazy repetition, ordered alternation,
capture groups, conditional groups, anchors, one-character lookbehind and
negative lookahead, `IGNORECASE` on literals and classes).  Repetition
bodies of every embedded pattern consume at least one character, so the
engine requires progress between iterations.  The matcher carries a fuel
argument bounding the depth of its call chains; `rxFuel` is ample for the
embedded patterns on the lines they are applied to. -/

/-- Capture groups recorded so far: `(index, start, end)`, most recent
first. -/
abbrev Groups := List (Nat × Nat × Nat)

/-- Record a capture (later captures of the same group shadow earlier
ones, as in Python where the last successful iteration wins). -/
def grpSet (i s e : Nat) (gs : Groups) : Groups := (i, s, e) :: gs

/-- Span of a capture group, if it participated in the match. -/
def grpGet (gs : Groups) (i : Nat) : Option (Nat × Nat) :=
  match gs with
  | [] => none
  | (j, s, e) :: rest => if j = i then some (s, e) else grpGet rest i

/-- Regular-expression abstract syntax. -/
inductive Rx where
  /-- empty pattern -/
  | eps
  /-- one character satisfying the class predicate -/
  | cls (p : Char → Bool)
  /-- literal string, optionally case-insensitive -/
  | lit (s : Str) (ci : Bool)
  | seq (a b : Rx)
  /-- ordered alternation -/
  | alt (a b : Rx)
  /-- repetition between `lo` and `hi` times (`none` = unbounded) -/
  | rep (r : Rx) (lo : Nat) (hi : Option Nat) (lazy : Bool)
  /-- capture group `i` -/
  | grp (i : Nat) (r : Rx)
  /-- conditional `(?(i)a|b)` -/
  | cond (i : Nat) (a b : Rx)
  /-- `$`: end of string or just before a final newline -/
  | dollar
  /-- negative lookahead `(?!r)` -/
  | negAhead (r : Rx)
  /-- one-character positive lookbehind -/
  | prevIs (p : Char → Bool)
  /-- one-character negative lookbehind (succeeds at position 0) -/
  | prevNot (p : Char → Bool)

/-- Case-insensitive-capable literal match at a position. -/
def litAt : Str → Bool → Str → Nat → Bool
  | [], _, _, _ => true
  | c :: cs, ci, text, pos =>
    match text.get? pos with
    | some d =>
      (if ci then pyLower c = pyLower d else c = d) && litAt cs ci text (pos + 1)
    | none => false

/-- The backtracking matcher, in continuation-passing style.  `k` receives
the position after the current sub-pattern and the captures made so far. -/
def mrun (text : Str) : Nat → Rx → Nat → Groups →
    (Nat → Groups → Option (Nat × Groups)) → Option (Nat × Groups)
  | 0, _, _, _, _ => none
  | fuel + 1, r, pos, gs, k =>
    match r with
    | .eps => k pos gs
    | .cls p =>
      match text.get? pos with
      | some c => if p c then k (pos + 1) gs else none
      | none => none
    | .lit s ci => if litAt s ci text pos then k (pos + s.length) gs else none
    | .seq a b => mrun text fuel a pos gs (fun p g => mrun text fuel b p g k)
    | .alt a b =>
      match mrun text fuel a pos gs k with
      | some res => some res
      | none => mrun text fuel b pos gs k
    | .grp i r => mrun text fuel r pos gs (fun p g => k p (grpSet i pos p g))
    | .cond i a b =>
      match grpGet gs i with
      | some _ => mrun text fuel a pos gs k
      | none => mrun text fuel b pos gs k
    | .dollar =>
      if pos = text.length ∨ (pos + 1 = text.length ∧ text.get? pos = some '\n')
      then k pos gs else none
    | .negAhead r =>
      match mrun text fuel r pos gs (fun p g => some (p, g)) with
      | none => k pos gs
      | some _ => none
    | .prevIs p =>
      match pos with
      | 0 => none
      | q + 1 =>
        match text.get? q with
        | some c => if p c then k pos gs else none
        | none => none
    | .prevNot p =>
      match pos with
      | 0 => k pos gs
      | q + 1 =>
        match text.get? q with
        | some c => if p c then none else k pos gs
        | none => k pos gs
    | .rep r lo hi lz =>
      if hi = some 0 then k pos gs
      else
        let hi' := hi.map (· - 1)
        if lo = 0 then
          if lz then
            match k pos gs with
            | some res => some res
            | none =>
              mrun text fuel r pos gs (fun p g =>
                if pos < p then mrun text fuel (.rep r 0 hi' lz) p g k else none)
          else
            match mrun text fuel r pos gs (fun p g =>
                if pos < p then mrun text fuel (.rep r 0 hi' lz) p g k else none) with
            | some res => some res
            | none => k pos gs
        else
          mrun text fuel r pos gs (fun p g =>
            if pos < p then mrun text fuel (.rep r (lo - 1) hi' lz) p g k else none)

/-- Fuel ample for the embedded patterns: the engine's call chains advance
either through the (bounded) pattern structure or through the text. -/
def rxFuel (text : Str) : Nat := (text.length + 8) * 256

/-- `pattern.match(text)`: anchored match at position 0, returning the match
end and the capture groups. -/
def reMatch (rx : Rx) (text : Str) : Option (Nat × Groups) :=
  mrun text (rxFuel text) rx 0 [] (fun p g => some (p, g))

/-- Helper loop for `reSearch`, trying start positions left to right. -/
def reSearchGo (rx : Rx) (text : Str) : Nat → Nat → Option (Nat × Nat × Groups)
  | 0, _ => none
  | n + 1, start =>
    match mrun text (rxFuel text) rx start [] (fun p g => some (p, g)) with
    | some (e, gs) => some (start, e, gs)
    | none => reSearchGo rx text n (start + 1)

/-- `pattern.search(text)`: leftmost match, returning start, end and the
capture groups. -/
def reSearch (rx : Rx) (text : Str) : Option (Nat × Nat × Groups) :=
  reSearchGo rx text (text.length + 1) 0

/-- The text of a span. -/
def spanText (l : Str) (s e : Nat) : Str := (l.drop s).take (e - s)

/-! #### The embedded patterns -/

/-- `\s` as a pattern. -/
def rxWs : Rx := .cls isPyWs

/-- `\S` as a pattern. -/
def rxNonWs : Rx := .cls (fun c => !isPyWs c)

/-- `\w` as a pattern. -/
def rxWord : Rx := .cls isWordCh

/-- `.` as a pattern (any character except a newline). -/
def rxAny : Rx := .cls (fun c => c != '\n')

/-- `r?` -/
def rxOpt (r : Rx) : Rx := .rep r 0 (some 1) false

/-- `r*` -/
def rxStar (r : Rx) : Rx := .rep r 0 none false

/-- `r+` -/
def rxPlus (r : Rx) : Rx := .rep r 1 none false

/-- n-ary concatenation -/
def rxSeq (rs : List Rx) : Rx := rs.foldr .seq .eps

/-- The class `[0-9\.E+-]` under `IGNORECASE` (so `e` as well). -/
def isNumValCh (c : Char) : Bool :=
  isDigitCh c ∨ c = '.' ∨ c = 'E' ∨ c = 'e' ∨ c = '+' ∨ c = '-'

/-- The class `[kmuµnpf]` under `IGNORECASE`. -/
def isEngSufCh (c : Char) : Bool :=
  pyLower c ∈ (['k', 'm', 'u', 'µ', 'n', 'p', 'f'] : List Char)

/-- The class `[\d\w\{\}\(\)\-\+\*/]` of the `X` pattern's parameter
values. -/
def isXParamValCh (c : Char) : Bool :=
  isWordCh c ∨ c ∈ (['{', '}', '(', ')', '-', '+', '*', '/'] : List Char)

/-- The class `[\w\*\/\.\+\-\/\*\{\}\(\)\t ]` of `PARAM_REGEX` values. -/
def isParamValCh (c : Char) : Bool :=
  isWordCh c ∨ c ∈ (['*', '/', '.', '+', '-', '{', '}', '(', ')', '\t', ' '] : List Char)

/-- `REPLACE_REGXES['R']`:
`^(?P<designator>R§?\w+)(?P<nodes>(\s+\S+){2})(?P<model>\s+\w+)?\s+`
`(?P<value>(R=)?({)?(?(7).*}|([0-9\.E+-]+(Meg|[kmuµnpf])?R?)\d*)).*$`
with `IGNORECASE`; groups numbered as Python numbers them
(1 designator, 2 nodes, 3 inner node, 4 model, 5 value, 6 `(R=)`,
7 `({)`, 8 number alternative, 9 suffix). -/
def rxR : Rx := rxSeq
  [ .grp 1 (rxSeq [.lit (str "R") true, rxOpt (.lit (str "§") true),
      rxPlus rxWord]),
    .grp 2 (.rep (.grp 3 (rxSeq [rxPlus rxWs, rxPlus rxNonWs])) 2 (some 2) false),
    rxOpt (.grp 4 (rxSeq [rxPlus rxWs, rxPlus rxWord])),
    rxPlus rxWs,
    .grp 5 (rxSeq
      [ rxOpt (.grp 6 (.lit (str "R=") true)),
        rxOpt (.grp 7 (.lit (str "\x7b") false)),
        .cond 7
          (rxSeq [rxStar rxAny, .lit (str "\x7d") false])
          (rxSeq
            [ .grp 8 (rxSeq
                [ rxPlus (.cls isNumValCh),
                  rxOpt (.grp 9 (.alt (.lit (str "Meg") true) (.cls isEngSufCh))),
                  rxOpt (.lit (str "R") true)]),
              rxStar (.cls isDigitCh)])]),
    rxStar rxAny,
    .dollar]

/-- `REPLACE_REGXES['X']`:
`^(?P<designator>X§?\w+)(?P<nodes>(\s+\S+){1,99}?)\s+(?P<value>\w+)`
`(\s+params:)?(?P<params>(\s+\w+\s*=\s*[\d\w\{\}\(\)\-\+\*/]+)*)\s*\\?$`
with `IGNORECASE`; groups: 1 designator, 2 nodes, 3 inner node, 4 value,
5 `(\s+params:)`, 6 params, 7 inner parameter. -/
def rxX : Rx := rxSeq
  [ .grp 1 (rxSeq [.lit (str "X") true, rxOpt (.lit (str "§") true),
      rxPlus rxWord]),
    .grp 2 (.rep (.grp 3 (rxSeq [rxPlus rxWs, rxPlus rxNonWs])) 1 (some 99) true),
    rxPlus rxWs,
    .grp 4 (rxPlus rxWord),
    rxOpt (.grp 5 (rxSeq [rxPlus rxWs, .lit (str "params:") true])),
    .grp 6 (rxStar (.grp 7 (rxSeq
      [ rxPlus rxWs, rxPlus rxWord, rxStar rxWs, .lit (str "=") true,
        rxStar rxWs, rxPlus (.cls isXParamValCh)]))),
    rxStar rxWs,
    rxOpt (.lit (str "\\") false),
    .dollar]

/-- `REPLACE_REGXES['A'] = r""`: the empty pattern (LTspice special
functions; parameter substitution not supported).  It matches every line
with a zero-width match and defines no groups at all. -/
def rxA : Rx := .eps

/-- `REPLACE_REGXES['B']`:
`^(?P<designator>B§?[VI]?\w+)(?P<nodes>(\s+\S+){2})\s+(?P<value>.*)$`
with `IGNORECASE`; groups 1 designator, 2 nodes, 3 inner node, 4 value. -/
def rxB : Rx := rxSeq
  [ .grp 1 (rxSeq [.lit (str "B") true, rxOpt (.lit (str "§") true),
      rxOpt (.cls (fun c => c = 'V' ∨ c = 'v' ∨ c = 'I' ∨ c = 'i')),
      rxPlus rxWord]),
    .grp 2 (.rep (.grp 3 (rxSeq [rxPlus rxWs, rxPlus rxNonWs])) 2 (some 2) false),
    rxPlus rxWs, .grp 4 (rxStar rxAny), .dollar]

/-- The common shape
`^(?P<designator>K§?\w+)(?P<nodes>(\s+\S+){lo,hi})\s+(?P<value>.*)$`
of the kinds whose edit replaces everything after the nodes
(`E F G H I S T U V W`); groups 1 designator, 2 nodes, 3 inner node,
4 value. -/
def rxRestAll (k : Str) (lo hi : Nat) : Rx := rxSeq
  [ .grp 1 (rxSeq [.lit k true, rxOpt (.lit (str "§") true), rxPlus rxWord]),
    .grp 2 (.rep (.grp 3 (rxSeq [rxPlus rxWs, rxPlus rxNonWs])) lo (some hi) false),
    rxPlus rxWs, .grp 4 (rxStar rxAny), .dollar]

/-- The common shape
`^(?P<designator>K§?\w+)(?P<nodes>(\s+\S+){lo,hi})\s+(?P<value>\w+).*$`
of the kinds whose value is a single word (a model name: `D J M O Q Z`);
groups 1 designator, 2 nodes, 3 inner node, 4 value. -/
def rxWordVal (k : Str) (lo hi : Nat) : Rx := rxSeq
  [ .grp 1 (rxSeq [.lit k true, rxOpt (.lit (str "§") true), rxPlus rxWord]),
    .grp 2 (.rep (.grp 3 (rxSeq [rxPlus rxWs, rxPlus rxNonWs])) lo (some hi) false),
    rxPlus rxWs, .grp 4 (rxPlus rxWord), rxStar rxAny, .dollar]

/-- `REPLACE_REGXES['C']`:
`^(?P<designator>C§?\w+)(?P<nodes>(\s+\S+){2})(?P<model>\s+\w+)?\s+`
`(?P<value>({)?(?(6).*}|([0-9\.E+-]+(Meg|[kmuµnpf])?F?))).*$`
with `IGNORECASE`; groups 1 designator, 2 nodes, 3 inner node, 4 model,
5 value, 6 the open brace, 7 number alternative, 8 suffix. -/
def rxC : Rx := rxSeq
  [ .grp 1 (rxSeq [.lit (str "C") true, rxOpt (.lit (str "§") true),
      rxPlus rxWord]),
    .grp 2 (.rep (.grp 3 (rxSeq [rxPlus rxWs, rxPlus rxNonWs])) 2 (some 2) false),
    rxOpt (.grp 4 (rxSeq [rxPlus rxWs, rxPlus rxWord])),
    rxPlus rxWs,
    .grp 5 (rxSeq
      [ rxOpt (.grp 6 (.lit (str "\x7b") false)),
        .cond 6
          (rxSeq [rxStar rxAny, .lit (str "\x7d") false])
          (.grp 7 (rxSeq
            [ rxPlus (.cls isNumValCh),
              rxOpt (.grp 8 (.alt (.lit (str "Meg") true) (.cls isEngSufCh))),
              rxOpt (.lit (str "F") true)]))]),
    rxStar rxAny, .dollar]

/-- `REPLACE_REGXES['K']`:
`^(?P<designator>K§?\w+)(?P<nodes>(\s+\S+){2,4})\s+`
`(?P<value>[\+\-]?[0-9\.E+-]+[kmuµnpf]?).*$` with `IGNORECASE`;
groups 1 designator, 2 nodes, 3 inner node, 4 value. -/
def rxK : Rx := rxSeq
  [ .grp 1 (rxSeq [.lit (str "K") true, rxOpt (.lit (str "§") true),
      rxPlus rxWord]),
    .grp 2 (.rep (.grp 3 (rxSeq [rxPlus rxWs, rxPlus rxNonWs])) 2 (some 4) false),
    rxPlus rxWs,
    .grp 4 (rxSeq
      [ rxOpt (.cls (fun c => c = '+' ∨ c = '-')),
        rxPlus (.cls isNumValCh),
        rxOpt (.cls isEngSufCh)]),
    rxStar rxAny, .dollar]

/-- `REPLACE_REGXES['L']`:
`^(?P<designator>L§?\w+)(?P<nodes>(\s+\S+){2})\s+`
`(?P<value>({)?(?(5).*}|([0-9\.E+-]+(Meg|[kmuµnpf])?H?))).*$`
with `IGNORECASE`; groups 1 designator, 2 nodes, 3 inner node, 4 value,
5 the open brace, 6 number alternative, 7 suffix. -/
def rxL : Rx := rxSeq
  [ .grp 1 (rxSeq [.lit (str "L") true, rxOpt (.lit (str "§") true),
      rxPlus rxWord]),
    .grp 2 (.rep (.grp 3 (rxSeq [rxPlus rxWs, rxPlus rxNonWs])) 2 (some 2) false),
    rxPlus rxWs,
    .grp 4 (rxSeq
      [ rxOpt (.grp 5 (.lit (str "\x7b") false)),
        .cond 5
          (rxSeq [rxStar rxAny, .lit (str "\x7d") false])
          (.grp 6 (rxSeq
            [ rxPlus (.cls isNumValCh),
              rxOpt (.grp 7 (.alt (.lit (str "Meg") true) (.cls isEngSufCh))),
              rxOpt (.lit (str "H") true)]))]),
    rxStar rxAny, .dollar]

/-- `REPLACE_REGXES['D']` (word value, two nodes). -/
def rxD : Rx := rxWordVal (str "D") 2 2

/-- `REPLACE_REGXES['E']` (replace-all value, two to four nodes). -/
def rxE : Rx := rxRestAll (str "E") 2 4

/-- `REPLACE_REGXES['F']` (replace-all value, two nodes). -/
def rxF : Rx := rxRestAll (str "F") 2 2

/-- `REPLACE_REGXES['G']` (replace-all value, two to four nodes). -/
def rxG : Rx := rxRestAll (str "G") 2 4

/-- `REPLACE_REGXES['H']` (replace-all value, two nodes). -/
def rxH : Rx := rxRestAll (str "H") 2 2

/-- `REPLACE_REGXES['I']` (replace-all value, two nodes). -/
def rxI : Rx := rxRestAll (str "I") 2 2

/-- `REPLACE_REGXES['J']` (word value, three nodes). -/
def rxJ : Rx := rxWordVal (str "J") 3 3

/-- `REPLACE_REGXES['M']` (word value, three or four nodes). -/
def rxM : Rx := rxWordVal (str "M") 3 4

/-- `REPLACE_REGXES['O']` (word value, four nodes). -/
def rxO : Rx := rxWordVal (str "O") 4 4

/-- `REPLACE_REGXES['Q']` (word value, three or four nodes). -/
def rxQ : Rx := rxWordVal (str "Q") 3 4

/-- `REPLACE_REGXES['S']` (replace-all value, four nodes). -/
def rxS : Rx := rxRestAll (str "S") 4 4

/-- `REPLACE_REGXES['T']` (replace-all value, four nodes). -/
def rxT : Rx := rxRestAll (str "T") 4 4

/-- `REPLACE_REGXES['U']` (replace-all value, three nodes). -/
def rxU : Rx := rxRestAll (str "U") 3 3

/-- `REPLACE_REGXES['V']` (replace-all value, two nodes). -/
def rxV : Rx := rxRestAll (str "V") 2 2

/-- `REPLACE_REGXES['W']` (replace-all value, two nodes). -/
def rxW : Rx := rxRestAll (str "W") 2 2

/-- `REPLACE_REGXES['Z']` (word value, three nodes). -/
def rxZ : Rx := rxWordVal (str "Z") 3 3

/-- `REPLACE_REGXES['@']`:
`^(?P<designator>@§?\d+)(?P<nodes>(\s+\S+){2})\s?(?P<params>(.*)*)$`
with `IGNORECASE` (the FRA wiggler); groups 1 designator, 2 nodes,
3 inner node, 4 params, 5 inner `(.*)`.  There is no `value` group. -/
def rxAt : Rx := rxSeq
  [ .grp 1 (rxSeq [.lit (str "@") true, rxOpt (.lit (str "§") true),
      rxPlus (.cls isDigitCh)]),
    .grp 2 (.rep (.grp 3 (rxSeq [rxPlus rxWs, rxPlus rxNonWs])) 2 (some 2) false),
    rxOpt rxWs,
    .grp 4 (rxStar (.grp 5 (rxStar rxAny))),
    .dollar]

/-- The common shape
`^(?P<designator>K\w+)(?P<nodes>(\s+\S+){lo,hi})\s+(?P<value>.*)`
`(?P<params>(\s+\w+\s*=\s*[\d\w\x7b\x7d\(\)\-\+\*/]+)*)\s*\\?$`
of the QSPICE kinds `Ã ¥ € £ Ø` (no optional `§` in the designator);
groups 1 designator, 2 nodes, 3 inner node, 4 value, 5 params,
6 inner parameter. -/
def rxQspice (k : Str) (lo hi : Nat) : Rx := rxSeq
  [ .grp 1 (rxSeq [.lit k true, rxPlus rxWord]),
    .grp 2 (.rep (.grp 3 (rxSeq [rxPlus rxWs, rxPlus rxNonWs])) lo (some hi) false),
    rxPlus rxWs,
    .grp 4 (rxStar rxAny),
    .grp 5 (rxStar (.grp 6 (rxSeq
      [ rxPlus rxWs, rxPlus rxWord, rxStar rxWs, .lit (str "=") true,
        rxStar rxWs, rxPlus (.cls isXParamValCh)]))),
    rxStar rxWs, rxOpt (.lit (str "\\") false), .dollar]

/-- `REPLACE_REGXES['Ã']` (QSPICE, sixteen nodes). -/
def rxATilde : Rx := rxQspice (str "Ã") 16 16

/-- `REPLACE_REGXES['¥']` (QSPICE, sixteen nodes). -/
def rxYen : Rx := rxQspice (str "¥") 16 16

/-- `REPLACE_REGXES['€']` (QSPICE, thirty-two nodes). -/
def rxEuro : Rx := rxQspice (str "€") 32 32

/-- `REPLACE_REGXES['£']` (QSPICE, sixty-four nodes). -/
def rxPound : Rx := rxQspice (str "£") 64 64

/-- `REPLACE_REGXES['Ø']` (QSPICE, one to ninety-nine nodes, greedy —
unlike `X`, whose node repetition is lazy). -/
def rxOslash : Rx := rxQspice (str "Ø") 1 99

/-- `REPLACE_REGXES['×']`:
`^(?P<designator>×\w+)(?P<nodes>(\s+\S+){4,16})\s+(?P<value>.*)`
`(?P<params>(\w+\s+){1,8})\s*\\?$` with `IGNORECASE`;
groups 1 designator, 2 nodes, 3 inner node, 4 value, 5 params,
6 inner `(\w+\s+)`. -/
def rxTimes : Rx := rxSeq
  [ .grp 1 (rxSeq [.lit (str "×") true, rxPlus rxWord]),
    .grp 2 (.rep (.grp 3 (rxSeq [rxPlus rxWs, rxPlus rxNonWs])) 4 (some 16) false),
    rxPlus rxWs,
    .grp 4 (rxStar rxAny),
    .grp 5 (.rep (.grp 6 (rxSeq [rxPlus rxWord, rxPlus rxWs])) 1 (some 8) false),
    rxStar rxWs, rxOpt (.lit (str "\\") false), .dollar]

/-- `REPLACE_REGXES['Ö']`:
`^(?P<designator>Ö\w+)(?P<nodes>(\s+\S+){5})\s+(?P<params>.*)\s*\\?$`
with `IGNORECASE`; groups 1 designator, 2 nodes, 3 inner node, 4 params.
There is no `value` group. -/
def rxOuml : Rx := rxSeq
  [ .grp 1 (rxSeq [.lit (str "Ö") true, rxPlus rxWord]),
    .grp 2 (.rep (.grp 3 (rxSeq [rxPlus rxWs, rxPlus rxNonWs])) 5 (some 5) false),
    rxPlus rxWs,
    .grp 4 (rxStar rxAny),
    rxStar rxWs, rxOpt (.lit (str "\\") false), .dollar]

/-- `subckt_regex = ^.SUBCKT\s+(?P<name>\w+)` with `IGNORECASE` (the
unescaped `.` matches any character); group 1 is the name. -/
def subckt_regex : Rx := rxSeq
  [rxAny, .lit (str "SUBCKT") true, rxPlus rxWs, .grp 1 (rxPlus rxWord)]

/-- `SUBCKT_CLAUSE_FIND + subckt_name = ^.SUBCKT\s+<name>` with
`IGNORECASE`: the name is matched as a prefix only. -/
def rxSubcktClause (name : Str) : Rx := rxSeq
  [rxAny, .lit (str "SUBCKT") true, rxPlus rxWs, .lit name true]

/-- `lib_inc_regex = ^\.(LIB|INC)\s+(.*)$` with `IGNORECASE`; group 2 is
the library path. -/
def rxLibInc : Rx := rxSeq
  [ .lit (str ".") false,
    .grp 1 (.alt (.lit (str "LIB") true) (.lit (str "INC") true)),
    rxPlus rxWs,
    .grp 2 (rxStar rxAny),
    .dollar]

/-- `PARAM_REGEX % param`:
`(?<= )(?P<replace>param(\s*=\s*)(?P<value>[\w\*\/\.\+\-\/\*\{\}\(\)\t ]*))`
`(?<!\s)($|\s+)(?!\s*=)` with `IGNORECASE`; groups: 1 replace,
2 `(\s*=\s*)`, 3 value. -/
def rxParam (param : Str) : Rx := rxSeq
  [ .prevIs (fun c => c = ' '),
    .grp 1 (rxSeq
      [ .lit param true,
        .grp 2 (rxSeq [rxStar rxWs, .lit (str "=") false, rxStar rxWs]),
        .grp 3 (rxStar (.cls isParamValCh))]),
    .prevNot isPyWs,
    .alt .dollar (rxPlus rxWs),
    .negAhead (rxSeq [rxStar rxWs, .lit (str "=") false])]

/-! ### The editing operations -/

/-- `component_replace_regexs`: all 31 patterns of `REPLACE_REGXES`, each
together with the Python group number of its `value` group — `none` for
the three patterns (`A`, `@`, `Ö`) that define no `value` group, on which
`m.start('value')` raises `IndexError`. -/
def component_replace_regexs (c : Char) : Option (Rx × Option Nat) :=
  if c = 'A' then some (rxA, none)
  else if c = 'B' then some (rxB, some 4)
  else if c = 'C' then some (rxC, some 5)
  else if c = 'D' then some (rxD, some 4)
  else if c = 'E' then some (rxE, some 4)
  else if c = 'F' then some (rxF, some 4)
  else if c = 'G' then some (rxG, some 4)
  else if c = 'H' then some (rxH, some 4)
  else if c = 'I' then some (rxI, some 4)
  else if c = 'J' then some (rxJ, some 4)
  else if c = 'K' then some (rxK, some 4)
  else if c = 'L' then some (rxL, some 4)
  else if c = 'M' then some (rxM, some 4)
  else if c = 'O' then some (rxO, some 4)
  else if c = 'Q' then some (rxQ, some 4)
  else if c = 'R' then some (rxR, some 5)
  else if c = 'S' then some (rxS, some 4)
  else if c = 'T' then some (rxT, some 4)
  else if c = 'U' then some (rxU, some 4)
  else if c = 'V' then some (rxV, some 4)
  else if c = 'W' then some (rxW, some 4)
  else if c = 'X' then some (rxX, some 4)
  else if c = 'Z' then some (rxZ, some 4)
  else if c = '@' then some (rxAt, none)
  else if c = 'Ã' then some (rxATilde, some 4)
  else if c = '¥' then some (rxYen, some 4)
  else if c = '€' then some (rxEuro, some 4)
  else if c = '£' then some (rxPound, some 4)
  else if c = 'Ø' then some (rxOslash, some 4)
  else if c = '×' then some (rxTimes, some 4)
  else if c = 'Ö' then some (rxOuml, none)
  else none

/-- Model of `SpiceCircuit._set_model_and_value` (the non-hierarchical
splice): locate the line by leading designator, match it against its kind's
pattern, and replace exactly the `value` span with `value`.  When the prefix
has no registered pattern the Python code logs an error and returns with the
netlist untouched; when the pattern defines no `value` group (`A`, `@`,
`Ö`), `m.start('value')` raises `IndexError` after a successful match. -/
def _set_model_and_value (component value : Str) (ns : List Entry) :
    Except PyErr (List Entry) :=
  match component.head? with
  | none => .error .indexErr
  | some pfx =>
    match component_replace_regexs pfx with
    | none => .ok ns
    | some (rx, vgroup) => do
      let lineNo ← _get_line_starting_with component ns
      match ns.get? lineNo with
      | some (.line l) =>
        match reMatch rx l with
        | none => .error .unrecognizedSyntax
        | some (_, gs) =>
          match vgroup with
          | none => .error .indexErr
          | some vidx =>
            match grpGet gs vidx with
            | some (s, e) =>
              .ok (ns.set lineNo (.line (l.take s ++ value ++ l.drop e)))
            | none => .error .typeErr
      | _ => .error .typeErr

/-- Model of `SpiceCircuit.get_component_info(...)['value']` (all the
claims need of the component projection): the text of the `value` group of
the matched line; for the patterns without a `value` group the lookup in
`m.groupdict()` raises `KeyError`. -/
def get_component_value_circuit (reference : Str) (ns : List Entry) :
    Except PyErr Str :=
  if ':' ∈ reference then .error .notImplemented
  else
    match reference.head? with
    | none => .error .indexErr
    | some pfx =>
      match component_replace_regexs pfx with
      | none => .error .notImplemented
      | some (rx, vgroup) => do
        let lineNo ← _get_line_starting_with reference ns
        match ns.get? lineNo with
        | some (.line l) =>
          match reMatch rx l with
          | none => .error .unrecognizedSyntax
          | some (_, gs) =>
            match vgroup with
            | none => .error .keyErr
            | some vidx =>
              match grpGet gs vidx with
              | some (s, e) => .ok (spanText l s e)
              | none => .error .typeErr
        | _ => .error .typeErr

/-- Model of `SpiceCircuit.remove_component`: the located line is replaced
by the empty string in place ("blanks the line"). -/
def remove_component (designator : Str) (ns : List Entry) :
    Except PyErr (List Entry) :=
  (_get_line_starting_with designator ns).map (fun i => ns.set i (.line []))

/-- Model of `SpiceCircuit._get_line_matching`: index and search result of
the first string line classified as `command` on which the search
succeeds; `none` when there is none (Python's `(-1, None)`). -/
def _get_line_matching (command : Str) (search : Str → Option (Nat × Nat × Groups)) :
    List Entry → Except PyErr (Option (Nat × (Nat × Nat × Groups)))
  | [] => .ok none
  | .sub _ :: rest =>
    (_get_line_matching command search rest).map
      (Option.map (fun (i, m) => (i + 1, m)))
  | .line l :: rest => do
    match ← get_line_command_str l with
    | some c =>
      if c = command then
        match search l with
        | some m => .ok (some (0, m))
        | none =>
          (_get_line_matching command search rest).map
            (Option.map (fun (i, m) => (i + 1, m)))
      else
        (_get_line_matching command search rest).map
          (Option.map (fun (i, m) => (i + 1, m)))
    | none =>
      (_get_line_matching command search rest).map
        (Option.map (fun (i, m) => (i + 1, m)))

/-- The directive line `set_parameter` inserts when the parameter is not in
the netlist: `'.PARAM {}={}  ; Batch instruction'.format(param, value)`
followed by `END_LINE_TERM`. -/
def param_insert_line (param value : Str) : Str :=
  str ".PARAM " ++ param ++ ['='] ++ value ++ str "  ; Batch instruction" ++ ['\n']

/-- Model of `SpiceCircuit.set_parameter` (the value already rendered as
text): replace the `replace` span of the first matching `.PARAM` line with
`"{}={}".format(param, value)`, or insert a new directive line at index
`len(netlist) - 2`. -/
def set_parameter (param value : Str) (ns : List Entry) :
    Except PyErr (List Entry) := do
  match ← _get_line_matching (str ".PARAM") (reSearch (rxParam param)) ns with
  | some (i, (_, _, gs)) =>
    match ns.get? i, grpGet gs 1 with
    | some (.line l), some (s, e) =>
      .ok (ns.set i (.line (l.take s ++ param ++ ['='] ++ value ++ l.drop e)))
    | _, _ => .error .typeErr
  | none =>
    .ok (ns.insertIdx (ns.length - 2) (.line (param_insert_line param value)))

/-- The opening provenance marker `clone` inserts. -/
def clone_open_marker : Str :=
  str "***** SpiceEditor Manipulated this sub-circuit ****" ++ ['\n']

/-- The closing provenance marker `clone` appends. -/
def clone_close_marker : Str :=
  str "***** ENDS SpiceEditor ****" ++ ['\n']

/-- First loop of `setname`: the index of the first line matching
`subckt_regex` together with the span of its `name` group;
`TypeError` when a `SpiceCircuit` entry is reached first (the regex is
applied to a non-string). -/
def findSubcktNameLine : List Entry → Except PyErr (Option (Nat × Nat × Nat))
  | [] => .ok none
  | .sub _ :: _ => .error .typeErr
  | .line l :: rest =>
    match reMatch subckt_regex l with
    | some (_, gs) =>
      match grpGet gs 1 with
      | some (s, e) => .ok (some (0, s, e))
      | none => .error .typeErr
    | none =>
      (findSubcktNameLine rest).map (Option.map (fun (i, s, e) => (i + 1, s, e)))

/-- Second loop of `setname`: the index of the first entry whose line
command is exactly `.ENDS`. -/
def findEndsLine : List Entry → Except PyErr (Option Nat)
  | [] => .ok none
  | ent :: rest => do
    match ← get_line_command ent with
    | some c =>
      if c = str ".ENDS" then .ok (some 0)
      else (findEndsLine rest).map (Option.map (· + 1))
    | none => (findEndsLine rest).map (Option.map (· + 1))

/-- Model of `SpiceCircuit.setname`: splice the new name into the
`.SUBCKT` clause and replace the first following `.ENDS` line with
`'.ENDS ' + new_name + END_LINE_TERM`. -/
def setname (new_name : Str) (ns : List Entry) : Except PyErr (List Entry) :=
  if ns = [] then
    .ok [ .line (str "* SpiceEditor Created this sub-circuit"),
          .line (str ".SUBCKT " ++ new_name ++ ['\n']),
          .line (str ".ENDS " ++ new_name ++ ['\n'])]
  else do
    match ← findSubcktNameLine ns with
    | none => .error .missingExpectedClause
    | some (i, s, e) =>
      let ns1 :=
        match ns.get? i with
        | some (.line l) => ns.set i (.line (l.take s ++ new_name ++ l.drop e))
        | _ => ns
      match ← findEndsLine (ns1.drop i) with
      | none => .error .missingExpectedClause
      | some j =>
        .ok (ns1.set (i + j) (.line (str ".ENDS " ++ new_name ++ ['\n'])))

/-- Model of `SpiceCircuit.name`: the `name` group of the first line
matching `subckt_regex`; `RuntimeError` when the netlist is empty or no
line matches. -/
def nameOf (ns : List Entry) : Except PyErr Str := do
  if ns = [] then .error .runtimeErr
  else
    match ← findSubcktNameLine ns with
    | none => .error .runtimeErr
    | some (i, s, e) =>
      match ns.get? i with
      | some (.line l) => .ok (spanText l s e)
      | _ => .error .typeErr

/-- Model of `SpiceCircuit.clone`: a shallow copy of the netlist wrapped in
the two provenance marker comment lines, renamed via `setname` when
`new_name` is given and non-empty (Python tests `if new_name:` for
truthiness). -/
def clone (ns : List Entry) (new_name : Option Str) : Except PyErr (List Entry) :=
  let c := Entry.line clone_open_marker :: ns ++ [Entry.line clone_close_marker]
  match new_name with
  | some nm => if nm = [] then .ok c else setname nm c
  | none => .ok c

/-! ### File-level resolution

File input/output is modelled by an association list from file name to the
decoded lines of that file.  `open` on a name that is not in the list (in
particular the empty path `Path('')` that `SpiceCircuit.circuit_file`
returns for nested sub-circuits) raises `FileNotFoundError`; encoding
detection is the out-of-scope collaborator and is the identity on the
already-decoded lines. -/

/-- The modelled file system. -/
abbrev Files := List (Str × List Str)

/-- Look up a file's decoded lines. -/
def files_get : Files → Str → Option (List Str)
  | [], _ => none
  | (n, ls) :: rest, name => if n = name then some ls else files_get rest name

/-- Scan loop of `find_subckt_in_lib`: on a line matching
`^.SUBCKT\s+<name>`, build the sub-circuit from the following lines with
`_add_lines` (which consumes from the shared file iterator); if it finishes,
that is the result, otherwise continue scanning the lines the build left. -/
def find_subckt_scan (name : Str) : Nat → List Str →
    Except PyErr (Option (List Entry))
  | 0, _ => .ok none
  | _ + 1, [] => .ok none
  | fuel + 1, l :: ls =>
    if (reMatch (rxSubcktClause name) l).isSome then
      match _add_lines ls.length [Entry.line l] ls with
      | .ok (sub, true, _) => .ok (some sub)
      | .ok (_, false, rest) => find_subckt_scan name fuel rest
      | .error e => .error e
    else find_subckt_scan name fuel ls

/-- Model of `SpiceEditor.find_subckt_in_lib`: opens the library file
(raising `FileNotFoundError` when it does not exist) and scans it for a
`.SUBCKT` clause whose name starts with `subckt_name`. -/
def find_subckt_in_lib (fs : Files) (library subckt_name : Str) :
    Except PyErr (Option (List Entry)) :=
  match files_get fs library with
  | none => .error (.fileNotFound library)
  | some lines => find_subckt_scan subckt_name lines.length lines

/-- `os.path.join(os.path.expanduser('~'), "Documents\\LTspiceXVII\\lib\\sub", lib)`
with `~` left symbolic. -/
def ltspice_lib_path (lib : Str) : Str :=
  str "~/Documents\\LTspiceXVII\\lib\\sub/" ++ lib

/-- The declared-library loop of `get_subcircuit`: for each `.LIB`/`.INC`
line whose path exists, try the LTspice documents location.  The process-wide
`LibSearchPaths` list is modelled in its initial (empty) state, so its inner
loop contributes nothing.  Applying the regex to a `SpiceCircuit` entry
raises `TypeError` as in Python. -/
def lib_search (fs : Files) (name : Str) : List Entry →
    Except PyErr (Option (List Entry))
  | [] => .ok none
  | .sub _ :: _ => .error .typeErr
  | .line l :: rest =>
    match reMatch rxLibInc l with
    | some (_, gs) =>
      match grpGet gs 2 with
      | some (s, e) =>
        let lib := spanText l s e
        if (files_get fs lib).isSome then
          match files_get fs (ltspice_lib_path lib) with
          | some _ => do
            match ← find_subckt_in_lib fs (ltspice_lib_path lib) name with
            | some sc => .ok (some sc)
            | none => lib_search fs name rest
          | none => lib_search fs name rest
        else lib_search fs name rest
      | none => lib_search fs name rest
    | none => lib_search fs name rest

/-- `instance_name.split(SUBCKT_DIVIDER, 1)`. -/
def splitOnFirst (div : Char) (s : Str) : Str × Option Str :=
  let pre := s.takeWhile (· ≠ div)
  if pre.length = s.length then (s, none) else (pre, some (s.drop (pre.length + 1)))

/-- Model of `SpiceCircuit.get_subcircuit`: resolve the first path segment
to an instantiation line, extract the referenced sub-circuit name from its
`X`-pattern `value` group, locate the definition first in the current tree's
own file, then in declared libraries, and recurse on the rest of the path.
The recursive hop happens on a nested `SpiceCircuit`, whose `circuit_file`
is `Path('')` — so its own-file search opens the empty path.  `fuel` bounds
the path recursion and is instantiated above any segment count. -/
def get_subcircuit (fs : Files) : Nat → Str → List Entry → Str →
    Except PyErr (List Entry)
  | 0, _, _, _ => .error .runtimeErr
  | fuel + 1, circuit_file, ns, instance_name => do
    let (subckt_ref, subRest) := splitOnFirst ':' instance_name
    let line_no ← _get_line_starting_with subckt_ref ns
    match ns.get? line_no with
    | some (.line inst) =>
      match reMatch rxX inst with
      | none => .error .unrecognizedSyntax
      | some (_, gs) =>
        match grpGet gs 4 with
        | none => .error .typeErr
        | some (s, e) => do
          let subcircuit_name := spanText inst s e
          let found ← find_subckt_in_lib fs circuit_file subcircuit_name
          let found2 ←
            match found with
            | some sc => pure (some sc)
            | none => lib_search fs subcircuit_name ns
          match found2 with
          | some sc =>
            match subRest with
            | some rest => get_subcircuit fs fuel [] sc rest
            | none => .ok sc
          | none => .error .componentNotFound
    | _ => .error .typeErr

/-! ### The top-level editor -/

/-- The in-memory state of a `SpiceEditor`: the parsed netlist and the
clone registry `modified_subcircuits` (insertion-ordered, as a Python
dict). -/
structure EditorState where
  netlist : List Entry
  modified_subcircuits : Registry
  deriving DecidableEq

/-- Registry lookup (`modified_path in self.modified_subcircuits`). -/
def regGetKey : Registry → Str → Option (List Entry)
  | [], _ => none
  | (k, v) :: rest, key => if k = key then some v else regGetKey rest key

/-- Replace the value stored under an existing key (Python mutates the
registered `SpiceCircuit` object in place). -/
def regSetKey : Registry → Str → List Entry → Registry
  | [], _, _ => []
  | (k, v) :: rest, key, nv =>
    if k = key then (key, nv) :: rest else (k, v) :: regSetKey rest key nv

/-- `component.split(SUBCKT_DIVIDER)`. -/
def splitAll (div : Char) : Str → List Str
  | [] => [[]]
  | c :: rest =>
    if c = div then [] :: splitAll div rest
    else
      match splitAll div rest with
      | [] => [[c]]
      | seg :: segs => (c :: seg) :: segs

/-- `divider.join(segments)`. -/
def joinWith (div : Char) : List Str → Str
  | [] => []
  | [s] => s
  | s :: rest => s ++ [div] ++ joinWith div rest

/-- Model of `SpiceEditor._set_model_and_value`.  A path that starts with
`X` and contains the divider addresses an element inside an instantiated
sub-circuit: reuse the registered clone for the path prefix if there is
one; otherwise resolve the prefix to the original definition, clone it
under the path-derived name, register the clone, rewrite the instantiating
line (recursively, through this same method), and apply the scalar edit to
the clone.  `fuel` bounds the path recursion. -/
def _set_model_and_value_editor (fs : Files) (circuit_file : Str) :
    Nat → EditorState → Str → Str → Except PyErr EditorState
  | 0, _, _, _ => .error .runtimeErr
  | fuel + 1, st, component, value =>
    match component.head? with
    | none => .error .indexErr
    | some pfx =>
      if pfx = 'X' ∧ ':' ∈ component then
        let segs := splitAll ':' component
        let modified_path := joinWith ':' segs.dropLast
        let leaf := (segs.getLast?).getD []
        match regGetKey st.modified_subcircuits modified_path with
        | some sub => do
          let sub' ← _set_model_and_value leaf value sub
          .ok { st with
            modified_subcircuits :=
              regSetKey st.modified_subcircuits modified_path sub' }
        | none => do
          let orig ← get_subcircuit fs (component.length + 1) circuit_file
            st.netlist modified_path
          let nm ← nameOf orig
          let new_name := nm ++ ['_'] ++ joinWith '_' segs.dropLast
          let subc ← clone orig (some new_name)
          let st1 := { st with
            modified_subcircuits :=
              st.modified_subcircuits ++ [(modified_path, subc)] }
          let st2 ← _set_model_and_value_editor fs circuit_file fuel st1
            modified_path new_name
          let subc' ← _set_model_and_value leaf value subc
          .ok { st2 with
            modified_subcircuits :=
              regSetKey st2.modified_subcircuits modified_path subc' }
      else do
        let ns' ← _set_model_and_value component value st.netlist
        .ok { st with netlist := ns' }

/-- `SpiceEditor.set_component_value` (which delegates to
`_set_model_and_value`), with ample path-recursion fuel. -/
def set_component_value_editor (fs : Files) (circuit_file : Str)
    (st : EditorState) (device value : Str) : Except PyErr EditorState :=
  _set_model_and_value_editor fs circuit_file (device.length + 1) st device value

/-- Model of `SpiceEditor.get_component_info(...)['value']` for the editor:
a path with prefix `X` and a divider goes through the registered clone for
its path prefix when present — otherwise the source resolves
`get_subcircuit(component)` where `component` has already been rebound to
the last segment. -/
def get_component_value_editor (fs : Files) (circuit_file : Str)
    (st : EditorState) (component : Str) : Except PyErr Str :=
  match component.head? with
  | none => .error .indexErr
  | some pfx =>
    if pfx = 'X' ∧ ':' ∈ component then
      let segs := splitAll ':' component
      let modified_path := joinWith ':' segs.dropLast
      let leaf := (segs.getLast?).getD []
      match regGetKey st.modified_subcircuits modified_path with
      | some sub => get_component_value_circuit leaf sub
      | none => do
        let sub ← get_subcircuit fs (leaf.length + 1) circuit_file st.netlist leaf
        get_component_value_circuit leaf sub
    else get_component_value_circuit component st.netlist

/-- `SpiceEditor.reset_netlist` with the file system environment: read the
netlist file's lines and rebuild; a missing file only logs an error and
leaves the cleared netlist. -/
def reset_netlist_editor (fs : Files) (netlist_file : Str) :
    Except PyErr EditorState :=
  match files_get fs netlist_file with
  | some lines => (reset_netlist lines).map (fun ns => ⟨ns, []⟩)
  | none => .ok ⟨[], []⟩

/-! ### The value codec (`format_eng` / `scan_eng` in `base_editor.py`)

Python's binary floating point is modelled by exact rational arithmetic:
`floor(log(abs(value), 1000))` becomes the exact `ratIntLog 1000 |q|`, the
multiplications by powers of ten and by the SI multipliers become exact
rational products, and `'{:g}'.format` becomes correctly-rounded conversion
to six significant decimal digits with ties to even (the rounding CPython's
float repr/format machinery applies to the decimal conversion of a double),
followed by removal of trailing fractional zeros.  All string processing
follows the source exactly. -/

/-- The character of a decimal digit. -/
def digitChar (d : ℕ) : Char := Char.ofNat (48 + d)

/-- Base-ten digits of `n`, least significant first, with explicit fuel so
that the kernel can evaluate them (at most `n` divisions are needed). -/
def natDigitsFuel : Nat → ℕ → List ℕ
  | 0, _ => []
  | fuel + 1, n => if n = 0 then [] else n % 10 :: natDigitsFuel fuel (n / 10)

/-- Decimal digits of `n`, most significant first (empty for `0`). -/
def natDigitChars (n : ℕ) : Str := ((natDigitsFuel n n).reverse).map digitChar

/-- The numeric value of a string of decimal digits. -/
def parseDigitsNat (s : Str) : ℕ :=
  s.foldl (fun acc c => 10 * acc + (c.toNat - 48)) 0

/-- `Nat.log` with explicit fuel (the number of divisions is at most the
argument), so that it evaluates inside the kernel. -/
def natLogFuel (b : ℕ) : Nat → ℕ → ℕ
  | 0, _ => 0
  | fuel + 1, n => if 1 < b ∧ b ≤ n then natLogFuel b fuel (n / b) + 1 else 0

/-- Floor logarithm on naturals. -/
def natLog (b n : ℕ) : ℕ := natLogFuel b n n

/-- `Nat.clog` with explicit fuel. -/
def natClogFuel (b : ℕ) : Nat → ℕ → ℕ
  | 0, _ => 0
  | fuel + 1, n =>
    if 1 < b ∧ 1 < n then natClogFuel b fuel ((n + b - 1) / b) + 1 else 0

/-- Ceiling logarithm on naturals. -/
def natClog (b n : ℕ) : ℕ := natClogFuel b n n

/-- The exact floor logarithm `⌊log_b q⌋` of a positive rational — the
model of the float computation `floor(log(x, b))`. -/
def ratIntLog (b : ℕ) (q : ℚ) : ℤ :=
  if 1 ≤ q then (natLog b ⌊q⌋₊ : ℤ) else -(natClog b ⌈q⁻¹⌉₊ : ℤ)

/-- Powers of a rational by a natural, by plain recursion so the kernel
can evaluate them. -/
def qnpow (q : ℚ) : ℕ → ℚ
  | 0 => 1
  | n + 1 => q * qnpow q n

/-- Powers of a rational by an integer, by plain recursion. -/
def qzpow (q : ℚ) (z : ℤ) : ℚ :=
  if 0 ≤ z then qnpow q z.toNat else (qnpow q (-z).toNat)⁻¹

/-- Round to the nearest integer, ties to even. -/
def rne (q : ℚ) : ℤ :=
  let f := ⌊q⌋
  let r := q - f
  if r < 1 / 2 then f
  else if 1 / 2 < r then f + 1
  else if Even f then f else f + 1

/-- Remove trailing `'0'` characters. -/
def stripZeros (s : Str) : Str := (s.reverse.dropWhile (· = '0')).reverse

/-- Fixed-point rendering of the six-significant-digit integer `n`
(`10^5 ≤ n < 10^6`, or `10^5` after a carry) whose value is `n·10^(X-5)`,
with trailing fractional zeros (and a bare point) removed. -/
def fixedChars (n : ℕ) (X : ℤ) : Str :=
  let ds := natDigitChars n
  if 0 ≤ X then
    let ip := ds.take (X.toNat + 1)
    let fp := stripZeros (ds.drop (X.toNat + 1))
    if fp = [] then ip else ip ++ ['.'] ++ fp
  else
    str "0." ++ stripZeros (List.replicate (-X - 1).toNat '0' ++ ds)

/-- Scientific rendering for the `'{:g}'` branch outside the fixed range
(unused by `format_eng`'s guarded callers, present for totality). -/
def sciChars (n : ℕ) (X : ℤ) : Str :=
  let ds := natDigitChars n
  let fp := stripZeros (ds.drop 1)
  let mant := if fp = [] then ds.take 1 else ds.take 1 ++ ['.'] ++ fp
  let eabs := X.natAbs
  let edigits := if eabs < 10 then '0' :: natDigitChars eabs else natDigitChars eabs
  mant ++ ['e'] ++ (if X < 0 then '-' else '+') :: edigits

/-- Model of `'{:g}'.format`: six significant digits, ties to even,
fixed notation when the rounded decimal exponent lies in `[-4, 6)`,
trailing fractional zeros removed. -/
def formatG (q : ℚ) : Str :=
  if q = 0 then ['0']
  else
    let a := |q|
    let X0 : ℤ := ratIntLog 10 a
    let n0 : ℤ := rne (a * qzpow 10 (5 - X0))
    let nX : ℤ × ℤ := if n0 = 1000000 then (100000, X0 + 1) else (n0, X0)
    let body :=
      if -4 ≤ nX.2 ∧ nX.2 < 6 then fixedChars nX.1.toNat nX.2
      else sciChars nX.1.toNat nX.2
    if q < 0 then '-' :: body else body

/-- Model of `'{:E}'.format`: scientific notation, six digits after the
point, uppercase exponent marker (the fallback branch of `format_eng`). -/
def formatE (q : ℚ) : Str :=
  if q = 0 then str "0.000000E+00"
  else
    let a := |q|
    let X0 : ℤ := ratIntLog 10 a
    let n0 : ℤ := rne (a * qzpow 10 (6 - X0))
    let nX : ℤ × ℤ := if n0 = 10000000 then (1000000, X0 + 1) else (n0, X0)
    let ds := natDigitChars nX.1.toNat
    let eabs := nX.2.natAbs
    let edigits := if eabs < 10 then '0' :: natDigitChars eabs else natDigitChars eabs
    (if q < 0 then ['-'] else []) ++ ds.take 1 ++ ['.'] ++ ds.drop 1 ++
      ['E'] ++ (if nX.2 < 0 then '-' else '+') :: edigits

/-- Model of `format_eng`: zero prints as `"0"`; otherwise
`e = floor(log1000 |q|)` selects a suffix (`"fpnum"[e]` for `e ∈ [-5,-1]`,
none for `e = 0`, `k` for `e = 1`, `Meg` for `e = 2`) and the mantissa
`q · 1000^(-e)` is rendered with `'{:g}'`; other magnitudes fall back to
`'{:E}'`. -/
def format_eng (q : ℚ) : Str :=
  if q = 0 then formatG q
  else
    let e : ℤ := ratIntLog 1000 |q|
    if -5 ≤ e ∧ e < 0 then
      formatG (q * qzpow 1000 (-e)) ++
        [(['f', 'p', 'n', 'u', 'm'].getD (e + 5).toNat 'f')]
    else if e = 0 then formatG q
    else if e = 1 then formatG (q * qzpow 1000 (-1)) ++ ['k']
    else if e = 2 then formatG (q * qzpow 1000 (-2)) ++ str "Meg"
    else formatE q

/-- Model of Python `str.strip()` (ASCII whitespace). -/
def pyStrip (s : Str) : Str :=
  ((s.dropWhile (fun c => isPyWs c)).reverse.dropWhile (fun c => isPyWs c)).reverse

/-- The boundary of `scan_eng`'s backward scan: the index just after the
last decimal digit (`0` when there is none). -/
def scanSplit (v : Str) : Nat :=
  v.length - (v.reverse.takeWhile (fun c => !isDigitCh c)).length

/-- The unsigned part of `float(str)`: decimal digits, an optional point
and fraction, and an optional exponent clause. -/
def pyFloatMag (t1 : Str) : Except PyErr ℚ :=
  let ip := t1.takeWhile isDigitCh
  let r1 := t1.drop ip.length
  let fpRest : Str × Str :=
    match r1 with
    | '.' :: r => (r.takeWhile isDigitCh, r.drop (r.takeWhile isDigitCh).length)
    | _ => ([], r1)
  let fp := fpRest.1
  let r2 := fpRest.2
  if ip = [] ∧ fp = [] then .error .valueErr
  else
    let base : ℚ := (parseDigitsNat ip : ℚ) + (parseDigitsNat fp : ℚ) / qnpow 10 fp.length
    match r2 with
    | [] => .ok base
    | c :: r3 =>
      if c = 'e' ∨ c = 'E' then
        let esgnRest : ℤ × Str :=
          match r3 with
          | '+' :: r => (1, r)
          | '-' :: r => (-1, r)
          | _ => (1, r3)
        let ed := esgnRest.2.takeWhile isDigitCh
        if ed = [] ∨ ed.length ≠ esgnRest.2.length then .error .valueErr
        else .ok (base * qzpow 10 (esgnRest.1 * (parseDigitsNat ed : ℤ)))
      else .error .valueErr

/-- Model of `float(str)` on finite decimal literals, exact in `ℚ`
(`inf`/`nan` and PEP-515 underscores are not modelled; they raise here and
never arise from the codec's own output): strip, read an optional sign,
and scale the unsigned part by it. -/
def pyFloat (s : Str) : Except PyErr ℚ :=
  let t := pyStrip s
  let sgnRest : ℚ × Str :=
    match t with
    | '+' :: r => (1, r)
    | '-' :: r => (-1, r)
    | _ => (1, t)
  (pyFloatMag sgnRest.2).map (fun v => sgnRest.1 * v)

/-- The SI multiplier table of `scan_eng` (`k` and `K` both kilo). -/
def engMult (c : Char) : ℚ :=
  if c = 'f' then 1 / 1000000000000000
  else if c = 'p' then 1 / 1000000000000
  else if c = 'n' then 1 / 1000000000
  else if c = 'u' ∨ c = 'µ' then 1 / 1000000
  else if c = 'm' then 1 / 1000
  else 1000

/-- Model of `scan_eng`: strip, scan backward to the last digit, parse the
numeric prefix with `float`, and apply the multiplier selected by the first
suffix character (or `×10^6` for a suffix starting with `MEG`
case-insensitively); unrecognized trailing units are ignored. -/
def scan_eng (s : Str) : Except PyErr ℚ := do
  let v := pyStrip s
  let x := scanSplit v
  let f ← pyFloat (v.take x)
  match v.drop x with
  | [] => .ok f
  | c :: rest =>
    if c ∈ (['f', 'p', 'n', 'u', 'µ', 'm', 'k', 'K'] : List Char) then
      .ok (f * engMult c)
    else if ((c :: rest).take 3).map pyUpper = str "MEG" then .ok (f * 1000000)
    else .ok f

/-! ### Derived predicates used by the claims -/

/-- Whether the classifier sees, on this line, a directive token beginning
with `.END` (the `cmd[:4] == '.END'` test of `_add_lines`). -/
def end_token_seen (l : Str) : Bool :=
  match get_line_command_str l with
  | .ok (some c) => decide (c.take 4 = str ".END")
  | _ => false

/-- Whether some prefix of the line classifies as the `.SUBCKT` directive:
this is what remains true of a nested tree's opening line after `+`
continuation lines are merged into it. -/
def isSubcktOpenerB (l : Str) : Bool :=
  (List.range (l.length + 1)).any (fun i =>
    decide (get_line_command_str (l.take i) = .ok (some (str ".SUBCKT"))))

/-- The first entry of the tree is its opening `.SUBCKT` directive line. -/
def headIsOpener (ns : List Entry) : Bool :=
  match ns.head? with
  | some (.line l) => isSubcktOpenerB l
  | _ => false

/-- The last entry of the tree is a closing directive line (token beginning
`.END`). -/
def lastIsEnd (ns : List Entry) : Bool :=
  match ns.getLast? with
  | some (.line l) => end_token_seen l
  | _ => false

mutual
/-- Well-formedness of an entry: nested trees open with their `.SUBCKT`
directive line, close with an `.END`-token line, and contain only
well-formed entries. -/
def entryWF : Entry → Bool
  | .line _ => true
  | .sub ns => headIsOpener ns && lastIsEnd ns && entriesWF ns

/-- All entries of a list are well-formed. -/
def entriesWF : List Entry → Bool
  | [] => true
  | e :: es => entryWF e && entriesWF es
end

/-! ### Concrete instances used by the claims -/

/-- A well-formed two-line netlist file. -/
def linesRoundTrip : List Str := [str "* test\n", str ".end\n"]

/-- A netlist file whose parse reaches `.END` with a line left over. -/
def linesTrailing : List Str :=
  [str "* test\n", str ".end\n", str "* after\n"]

/-- A netlist file with one sub-circuit, instantiated twice. -/
def linesOneLevel : List Str :=
  [str "* main\n", str "X1 a b subA\n", str "X2 c d subA\n",
   str ".SUBCKT subA 1 2\n", str "R1 1 2 1k\n", str ".ENDS subA\n",
   str ".END\n"]

/-- The file system containing `linesOneLevel` as `main.net`. -/
def filesOneLevel : Files := [(str "main.net", linesOneLevel)]

/-- The freshly loaded editor state for `filesOneLevel`. -/
def stOneLevel0 : EditorState :=
  (reset_netlist_editor filesOneLevel (str "main.net")).toOption.getD ⟨[], []⟩

/-- `stOneLevel0` after `set_component_value('X1:R1', '2k')`. -/
def stOneLevel1 : EditorState :=
  (set_component_value_editor filesOneLevel (str "main.net") stOneLevel0
    (str "X1:R1") (str "2k")).toOption.getD ⟨[], []⟩

/-- `stOneLevel1` after `set_component_value('X1:R1', '3k')`. -/
def stOneLevel2 : EditorState :=
  (set_component_value_editor filesOneLevel (str "main.net") stOneLevel1
    (str "X1:R1") (str "3k")).toOption.getD ⟨[], []⟩

/-- A netlist file with a sub-circuit nested inside a sub-circuit,
exercising a two-level hierarchical path. -/
def linesTwoLevel : List Str :=
  [str "* main\n", str "X1 a b subA\n",
   str ".SUBCKT subA 1 2\n", str "X2 1 2 subB\n",
   str ".SUBCKT subB 3 4\n", str "R1 3 4 1k\n", str ".ENDS subB\n",
   str ".ENDS subA\n", str ".END\n"]

/-- The file system containing `linesTwoLevel` as `main.net`. -/
def filesTwoLevel : Files := [(str "main.net", linesTwoLevel)]

/-- The sub-circuit tree of `subA` as construction produces it. -/
def treeSubA : List Entry :=
  [.line (str ".SUBCKT subA 1 2\n"), .line (str "R1 1 2 1k\n"),
   .line (str ".ENDS subA\n")]

/-- A three-entry netlist for the parameter-insertion claim. -/
def nsParamDemo : List Entry :=
  [.line (str "* hi\n"), .line (str ".backanno\n"), .line (str ".end\n")]

/-- A three-entry netlist for the component-removal claim. -/
def nsRemoveDemo : List Entry :=
  [.line (str "* c\n"), .line (str "R1 1 2 1k\n"), .line (str ".end\n")]

/-- The first character of the line outside space/tab — the character
`get_line_command` classifies on. -/
def first_non_blank (l : Str) : Option Char :=
  (l.dropWhile (fun c => c = ' ' ∨ c = '\t')).head?

/-! ## Lemmas: construction and serialization -/

theorem write_lines_list_append (a b : List Entry) :
    write_lines_list (a ++ b) = write_lines_list a ++ write_lines_list b := by
  induction a with
  | nil => simp [write_lines_list]
  | cons e es ih => simp [write_lines_list, ih]

theorem write_lines_list_merge (acc : List Entry) (last l : Str)
    (h : acc.getLast? = some (.line last)) :
    write_lines_list (acc.dropLast ++ [.line (last ++ l)]) =
      write_lines_list acc ++ l := by
  have hne : acc ≠ [] := by
    intro he; subst he; simp at h
  have hdl : acc.dropLast ++ [acc.getLast hne] = acc :=
    List.dropLast_append_getLast hne
  have hlast : acc.getLast hne = .line last := by
    have h2 : acc.getLast? = some (acc.getLast hne) := List.getLast?_eq_getLast acc hne
    rw [h2] at h
    injection h
  calc write_lines_list (acc.dropLast ++ [.line (last ++ l)])
      = write_lines_list acc.dropLast ++ (last ++ l) := by
        rw [write_lines_list_append]; simp [write_lines_list, entry_chars]
    _ = (write_lines_list acc.dropLast ++ last) ++ l := by simp
    _ = write_lines_list (acc.dropLast ++ [.line last]) ++ l := by
        rw [write_lines_list_append]; simp [write_lines_list, entry_chars]
    _ = write_lines_list acc ++ l := by rw [← hlast, hdl]

/-- A finished `_add_lines` run appends exactly the text of the lines it
consumed, and what it consumed is a prefix of the input. -/
theorem add_lines_flatten (fuel : Nat) :
    ∀ acc ls ns rest, ls.length ≤ fuel →
    _add_lines fuel acc ls = .ok (ns, true, rest) →
    ∃ consumed, ls = consumed ++ rest ∧
      write_lines_list ns = write_lines_list acc ++ consumed.flatten := by
  induction fuel with
  | zero =>
    intro acc ls ns rest hlen h
    have hnil : ls = [] := List.eq_nil_of_length_eq_zero (Nat.le_zero.mp hlen)
    subst hnil
    simp [_add_lines] at h
  | succ fuel ih =>
    intro acc ls ns rest hlen h
    match ls with
    | [] => simp [_add_lines] at h
    | l :: ls' =>
      rw [_add_lines] at h
      cases hcl : get_line_command_str l with
      | error e => rw [hcl] at h; simp [Bind.bind, Except.bind] at h
      | ok oc =>
        rw [hcl] at h
        simp only [Bind.bind, Except.bind] at h
        cases oc with
        | none => simp at h
        | some c =>
          simp only at h
          by_cases hsub : c = str ".SUBCKT"
          · rw [if_pos hsub] at h
            cases hnest : _add_lines fuel [Entry.line l] ls' with
            | error e => rw [hnest] at h; simp [Bind.bind, Except.bind] at h
            | ok res =>
              obtain ⟨sub, fin1, rest1⟩ := res
              rw [hnest] at h
              simp only [Bind.bind, Except.bind] at h
              cases fin1 with
              | false => simp at h
              | true =>
                simp only at h
                have hlen1 : ls'.length ≤ fuel := by
                  simp at hlen; omega
                obtain ⟨cons1, hsplit1, hw1⟩ := ih _ _ _ _ hlen1 hnest
                have hlenrest1 : rest1.length ≤ fuel := by
                  have : rest1.length ≤ ls'.length := by
                    rw [hsplit1]; simp
                  omega
                obtain ⟨cons2, hsplit2, hw2⟩ := ih _ _ _ _ hlenrest1 h
                refine ⟨l :: cons1 ++ cons2, ?_, ?_⟩
                · rw [hsplit1, hsplit2]; simp
                · rw [hw2, write_lines_list_append]
                  simp [write_lines_list, entry_chars, hw1]
          · rw [if_neg hsub] at h
            by_cases hplus : c = ['+']
            · rw [if_pos hplus] at h
              cases hlast : acc.getLast? with
              | none => rw [hlast] at h; simp at h
              | some ent =>
                rw [hlast] at h
                cases ent with
                | sub s => simp at h
                | line last =>
                  simp only at h
                  have hlen1 : ls'.length ≤ fuel := by
                    simp at hlen; omega
                  obtain ⟨cons1, hsplit1, hw1⟩ := ih _ _ _ _ hlen1 h
                  refine ⟨l :: cons1, ?_, ?_⟩
                  · rw [hsplit1]; simp
                  · rw [hw1, write_lines_list_merge acc last l hlast]
                    simp
            · rw [if_neg hplus] at h
              by_cases hend : c.take 4 = str ".END"
              · rw [if_pos hend] at h
                simp only [Except.ok.injEq, Prod.mk.injEq] at h
                obtain ⟨hns, _, hrest⟩ := h
                refine ⟨[l], by simp [hrest], ?_⟩
                rw [← hns, write_lines_list_append]
                simp [write_lines_list, entry_chars]
              · rw [if_neg hend] at h
                have hlen1 : ls'.length ≤ fuel := by
                  simp at hlen; omega
                obtain ⟨cons1, hsplit1, hw1⟩ := ih _ _ _ _ hlen1 h
                refine ⟨l :: cons1, by rw [hsplit1]; simp, ?_⟩
                rw [hw1, write_lines_list_append]
                simp [write_lines_list, entry_chars]

/-- With an empty clone registry, `save_netlist` is plain depth-first
serialization. -/
theorem save_netlist_empty_reg (ns : List Entry) :
    save_netlist ns [] = write_lines_list ns := by
  induction ns with
  | nil => simp [save_netlist, write_lines_list]
  | cons e rest ih =>
    cases e with
    | sub c => simp [save_netlist, write_lines_list, entry_chars, ih]
    | line l =>
      simp only [save_netlist, write_lines_list, entry_chars, ih, registry_chars]
      by_cases hend : starts_with_end_upper l
      · simp [hend]
      · simp [hend]

/-- A run over lines on which the classifier never sees a token beginning
`.END` cannot report `finished` and consumes its whole input. -/
theorem add_lines_no_end (fuel : Nat) :
    ∀ acc ls ns fin rest, ls.length ≤ fuel →
    (∀ l ∈ ls, end_token_seen l = false) →
    _add_lines fuel acc ls = .ok (ns, fin, rest) →
    fin = false ∧ rest = [] := by
  induction fuel with
  | zero =>
    intro acc ls ns fin rest hlen hno h
    have hnil : ls = [] := List.eq_nil_of_length_eq_zero (Nat.le_zero.mp hlen)
    subst hnil
    simp [_add_lines] at h
    obtain ⟨h1, h2, h3⟩ := h
    subst h2; subst h3
    exact ⟨rfl, rfl⟩
  | succ fuel ih =>
    intro acc ls ns fin rest hlen hno h
    match ls with
    | [] =>
      simp [_add_lines] at h
      obtain ⟨h1, h2, h3⟩ := h
      subst h2; subst h3
      exact ⟨rfl, rfl⟩
    | l :: ls' =>
      rw [_add_lines] at h
      cases hcl : get_line_command_str l with
      | error e => rw [hcl] at h; simp [Bind.bind, Except.bind] at h
      | ok oc =>
        rw [hcl] at h
        simp only [Bind.bind, Except.bind] at h
        cases oc with
        | none => simp at h
        | some c =>
          simp only at h
          have hlen1 : ls'.length ≤ fuel := by simp at hlen; omega
          have hno1 : ∀ x ∈ ls', end_token_seen x = false :=
            fun x hx => hno x (List.mem_cons_of_mem _ hx)
          by_cases hsub : c = str ".SUBCKT"
          · rw [if_pos hsub] at h
            cases hnest : _add_lines fuel [Entry.line l] ls' with
            | error e => rw [hnest] at h; simp [Bind.bind, Except.bind] at h
            | ok res =>
              obtain ⟨sub, fin1, rest1⟩ := res
              rw [hnest] at h
              simp only [Bind.bind, Except.bind] at h
              have hfin1 : fin1 = false ∧ rest1 = [] := ih _ _ _ _ _ hlen1 hno1 hnest
              rw [hfin1.1] at h
              simp at h
              obtain ⟨h1, h2, h3⟩ := h
              subst h2; subst h3
              exact ⟨rfl, hfin1.2⟩
          · rw [if_neg hsub] at h
            by_cases hplus : c = ['+']
            · rw [if_pos hplus] at h
              cases hlast : acc.getLast? with
              | none => rw [hlast] at h; simp at h
              | some ent =>
                rw [hlast] at h
                cases ent with
                | sub s => simp at h
                | line last => exact ih _ _ _ _ _ hlen1 hno1 h
            · rw [if_neg hplus] at h
              by_cases hend : c.take 4 = str ".END"
              · exfalso
                have hseen : end_token_seen l = true := by
                  simp [end_token_seen, hcl, hend]
                rw [hno l (List.mem_cons_self _ _)] at hseen
                exact Bool.false_ne_true hseen
              · rw [if_neg hend] at h
                exact ih _ _ _ _ _ hlen1 hno1 h

/-- A prefix that classifies as `.SUBCKT` survives appending text (the
continuation merge of `_add_lines`). -/
theorem isSubcktOpenerB_append (last l : Str)
    (h : isSubcktOpenerB last = true) : isSubcktOpenerB (last ++ l) = true := by
  simp only [isSubcktOpenerB, List.any_eq_true, List.mem_range,
    decide_eq_true_eq] at h ⊢
  obtain ⟨i, hi, hmatch⟩ := h
  refine ⟨i, by simp; omega, ?_⟩
  rwa [List.take_append_of_le_length (by omega)]

theorem headIsOpener_ne_nil {ns : List Entry} (h : headIsOpener ns = true) :
    ns ≠ [] := by
  intro he; subst he; simp [headIsOpener] at h

theorem headIsOpener_append (acc b : List Entry) (hne : acc ≠ []) :
    headIsOpener (acc ++ b) = headIsOpener acc := by
  match acc with
  | [] => exact absurd rfl hne
  | e :: rest => simp [headIsOpener]

/-- `_add_lines` never disturbs an opener at the head of the accumulated
netlist. -/
theorem add_lines_head_opener (fuel : Nat) :
    ∀ acc ls ns fin rest, ls.length ≤ fuel →
    _add_lines fuel acc ls = .ok (ns, fin, rest) →
    headIsOpener acc = true →
    headIsOpener ns = true := by
  induction fuel with
  | zero =>
    intro acc ls ns fin rest hlen h hacc
    have hnil : ls = [] := List.eq_nil_of_length_eq_zero (Nat.le_zero.mp hlen)
    subst hnil
    simp [_add_lines] at h
    obtain ⟨h1, h2, h3⟩ := h
    subst h1
    exact hacc
  | succ fuel ih =>
    intro acc ls ns fin rest hlen h hacc
    match ls with
    | [] =>
      simp [_add_lines] at h
      obtain ⟨h1, h2, h3⟩ := h
      subst h1
      exact hacc
    | l :: ls' =>
      rw [_add_lines] at h
      cases hcl : get_line_command_str l with
      | error e => rw [hcl] at h; simp [Bind.bind, Except.bind] at h
      | ok oc =>
        rw [hcl] at h
        simp only [Bind.bind, Except.bind] at h
        cases oc with
        | none => simp at h
        | some c =>
          simp only at h
          have hlen1 : ls'.length ≤ fuel := by simp at hlen; omega
          by_cases hsub : c = str ".SUBCKT"
          · rw [if_pos hsub] at h
            cases hnest : _add_lines fuel [Entry.line l] ls' with
            | error e => rw [hnest] at h; simp [Bind.bind, Except.bind] at h
            | ok res =>
              obtain ⟨sub, fin1, rest1⟩ := res
              rw [hnest] at h
              simp only [Bind.bind, Except.bind] at h
              cases fin1 with
              | false =>
                simp at h
                obtain ⟨h1, h2, h3⟩ := h
                subst h1
                exact hacc
              | true =>
                simp only at h
                have hrest1 : rest1.length ≤ fuel := by
                  obtain ⟨cons1, hsplit1, -⟩ :=
                    add_lines_flatten fuel _ _ _ _ hlen1 hnest
                  have : rest1.length ≤ ls'.length := by rw [hsplit1]; simp
                  omega
                refine ih _ _ _ _ _ hrest1 h ?_
                rw [headIsOpener_append _ _ (headIsOpener_ne_nil hacc)]
                exact hacc
          · rw [if_neg hsub] at h
            by_cases hplus : c = ['+']
            · rw [if_pos hplus] at h
              cases hlast : acc.getLast? with
              | none => rw [hlast] at h; simp at h
              | some ent =>
                rw [hlast] at h
                cases ent with
                | sub s => simp at h
                | line last =>
                  refine ih _ _ _ _ _ hlen1 h ?_
                  match acc, hlast with
                  | [e], hlast =>
                    simp at hlast
                    subst hlast
                    simp only [headIsOpener, List.head?] at hacc
                    simp only [List.dropLast, List.nil_append, headIsOpener,
                      List.head?]
                    exact isSubcktOpenerB_append last l hacc
                  | e1 :: e2 :: racc, hlast =>
                    have : (e1 :: e2 :: racc).dropLast = e1 :: (e2 :: racc).dropLast := rfl
                    rw [this]
                    simpa [headIsOpener] using hacc
            · rw [if_neg hplus] at h
              by_cases hend : c.take 4 = str ".END"
              · rw [if_pos hend] at h
                simp only [Except.ok.injEq, Prod.mk.injEq] at h
                rw [← h.1, headIsOpener_append _ _ (headIsOpener_ne_nil hacc)]
                exact hacc
              · rw [if_neg hend] at h
                refine ih _ _ _ _ _ hlen1 h ?_
                rw [headIsOpener_append _ _ (headIsOpener_ne_nil hacc)]
                exact hacc

/-- A finished `_add_lines` run ends on the `.END`-token line it just
appended. -/
theorem add_lines_last_end (fuel : Nat) :
    ∀ acc ls ns rest, ls.length ≤ fuel →
    _add_lines fuel acc ls = .ok (ns, true, rest) →
    lastIsEnd ns = true := by
  induction fuel with
  | zero =>
    intro acc ls ns rest hlen h
    have hnil : ls = [] := List.eq_nil_of_length_eq_zero (Nat.le_zero.mp hlen)
    subst hnil
    simp [_add_lines] at h
  | succ fuel ih =>
    intro acc ls ns rest hlen h
    match ls with
    | [] => simp [_add_lines] at h
    | l :: ls' =>
      rw [_add_lines] at h
      cases hcl : get_line_command_str l with
      | error e => rw [hcl] at h; simp [Bind.bind, Except.bind] at h
      | ok oc =>
        rw [hcl] at h
        simp only [Bind.bind, Except.bind] at h
        cases oc with
        | none => simp at h
        | some c =>
          simp only at h
          have hlen1 : ls'.length ≤ fuel := by simp at hlen; omega
          by_cases hsub : c = str ".SUBCKT"
          · rw [if_pos hsub] at h
            cases hnest : _add_lines fuel [Entry.line l] ls' with
            | error e => rw [hnest] at h; simp [Bind.bind, Except.bind] at h
            | ok res =>
              obtain ⟨sub, fin1, rest1⟩ := res
              rw [hnest] at h
              simp only [Bind.bind, Except.bind] at h
              cases fin1 with
              | false => simp at h
              | true =>
                simp only at h
                have hrest1 : rest1.length ≤ fuel := by
                  obtain ⟨cons1, hsplit1, -⟩ :=
                    add_lines_flatten fuel _ _ _ _ hlen1 hnest
                  have : rest1.length ≤ ls'.length := by rw [hsplit1]; simp
                  omega
                exact ih _ _ _ _ hrest1 h
          · rw [if_neg hsub] at h
            by_cases hplus : c = ['+']
            · rw [if_pos hplus] at h
              cases hlast : acc.getLast? with
              | none => rw [hlast] at h; simp at h
              | some ent =>
                rw [hlast] at h
                cases ent with
                | sub s => simp at h
                | line last => exact ih _ _ _ _ hlen1 h
            · rw [if_neg hplus] at h
              by_cases hend : c.take 4 = str ".END"
              · rw [if_pos hend] at h
                simp only [Except.ok.injEq, Prod.mk.injEq] at h
                rw [← h.1]
                simp only [lastIsEnd, List.getLast?_concat]
                simp [end_token_seen, hcl, hend]
              · rw [if_neg hend] at h
                exact ih _ _ _ _ hlen1 h

theorem entriesWF_append (a b : List Entry) :
    entriesWF (a ++ b) = (entriesWF a && entriesWF b) := by
  induction a with
  | nil => simp [entriesWF]
  | cons e es ih => simp [entriesWF, ih, Bool.and_assoc]

theorem entriesWF_dropLast (a : List Entry) (h : entriesWF a = true) :
    entriesWF a.dropLast = true := by
  rcases List.eq_nil_or_concat a with hnil | ⟨b, e, hb⟩
  · subst hnil; simp [entriesWF]
  · subst hb
    simp only [List.concat_eq_append] at h ⊢
    rw [entriesWF_append, Bool.and_eq_true] at h
    rw [List.dropLast_concat]
    exact h.1

/-- `_add_lines` preserves and establishes well-formedness: nested trees come
out delimited by their opening `.SUBCKT` line and a closing `.END`-token
line. -/
theorem add_lines_wf (fuel : Nat) :
    ∀ acc ls ns fin rest, ls.length ≤ fuel →
    _add_lines fuel acc ls = .ok (ns, fin, rest) →
    entriesWF acc = true → entriesWF ns = true := by
  induction fuel with
  | zero =>
    intro acc ls ns fin rest hlen h hacc
    have hnil : ls = [] := List.eq_nil_of_length_eq_zero (Nat.le_zero.mp hlen)
    subst hnil
    simp [_add_lines] at h
    obtain ⟨h1, h2, h3⟩ := h
    subst h1
    exact hacc
  | succ fuel ih =>
    intro acc ls ns fin rest hlen h hacc
    match ls with
    | [] =>
      simp [_add_lines] at h
      obtain ⟨h1, h2, h3⟩ := h
      subst h1
      exact hacc
    | l :: ls' =>
      rw [_add_lines] at h
      cases hcl : get_line_command_str l with
      | error e => rw [hcl] at h; simp [Bind.bind, Except.bind] at h
      | ok oc =>
        rw [hcl] at h
        simp only [Bind.bind, Except.bind] at h
        cases oc with
        | none => simp at h
        | some c =>
          simp only at h
          have hlen1 : ls'.length ≤ fuel := by simp at hlen; omega
          by_cases hsub : c = str ".SUBCKT"
          · rw [if_pos hsub] at h
            cases hnest : _add_lines fuel [Entry.line l] ls' with
            | error e => rw [hnest] at h; simp [Bind.bind, Except.bind] at h
            | ok res =>
              obtain ⟨sub, fin1, rest1⟩ := res
              rw [hnest] at h
              simp only [Bind.bind, Except.bind] at h
              cases fin1 with
              | false =>
                simp at h
                obtain ⟨h1, h2, h3⟩ := h
                subst h1
                exact hacc
              | true =>
                simp only at h
                have hrest1 : rest1.length ≤ fuel := by
                  obtain ⟨cons1, hsplit1, -⟩ :=
                    add_lines_flatten fuel _ _ _ _ hlen1 hnest
                  have : rest1.length ≤ ls'.length := by rw [hsplit1]; simp
                  omega
                refine ih _ _ _ _ _ hrest1 h ?_
                rw [entriesWF_append, Bool.and_eq_true]
                refine ⟨hacc, ?_⟩
                have hopenl : isSubcktOpenerB l = true := by
                  simp only [isSubcktOpenerB, List.any_eq_true, List.mem_range,
                    decide_eq_true_eq]
                  refine ⟨l.length, by omega, ?_⟩
                  rw [List.take_length]
                  rw [hcl, hsub]
                have hhead0 : headIsOpener [Entry.line l] = true := by
                  simp [headIsOpener, hopenl]
                have hhead : headIsOpener sub = true :=
                  add_lines_head_opener fuel _ _ _ _ _ hlen1 hnest hhead0
                have hlast : lastIsEnd sub = true :=
                  add_lines_last_end fuel _ _ _ _ hlen1 hnest
                have hwfsub : entriesWF sub = true :=
                  ih _ _ _ _ _ hlen1 hnest (by simp [entriesWF, entryWF])
                simp [entriesWF, entryWF, hhead, hlast, hwfsub]
          · rw [if_neg hsub] at h
            by_cases hplus : c = ['+']
            · rw [if_pos hplus] at h
              cases hlast : acc.getLast? with
              | none => rw [hlast] at h; simp at h
              | some ent =>
                rw [hlast] at h
                cases ent with
                | sub s => simp at h
                | line last =>
                  refine ih _ _ _ _ _ hlen1 h ?_
                  rw [entriesWF_append, Bool.and_eq_true]
                  exact ⟨entriesWF_dropLast _ hacc, by simp [entriesWF, entryWF]⟩
            · rw [if_neg hplus] at h
              by_cases hend : c.take 4 = str ".END"
              · rw [if_pos hend] at h
                simp only [Except.ok.injEq, Prod.mk.injEq] at h
                rw [← h.1, entriesWF_append, Bool.and_eq_true]
                exact ⟨hacc, by simp [entriesWF, entryWF]⟩
              · rw [if_neg hend] at h
                refine ih _ _ _ _ _ hlen1 h ?_
                rw [entriesWF_append, Bool.and_eq_true]
                exact ⟨hacc, by simp [entriesWF, entryWF]⟩

/-! ## Claim C1 -/

/-- C1 (counterexample): the claim's well-formedness hypothesis — parsing
reaches a terminating `.END` directive — is satisfied by `linesTrailing`,
yet loading it and saving immediately drops the line after `.END`, because
`reset_netlist` stops consuming the file at the first terminating directive.
The serialized output differs from the original byte content. -/
theorem spice_round_trip_counterexample :
    reset_netlist linesTrailing =
      .ok [Entry.line (str "* test\n"), Entry.line (str ".end\n")] ∧
    save_netlist [Entry.line (str "* test\n"), Entry.line (str ".end\n")] [] ≠
      linesTrailing.flatten := by
  refine ⟨by rfl, by decide⟩

/-- C1 (amended): for a well-formed netlist file whose terminating `.END`
directive consumes the input to its end (no content after the terminator),
loading with `reset_netlist` and serializing immediately with
`save_netlist` (empty clone registry, no edits) reproduces the original
byte content exactly. -/
theorem spice_round_trip :
    ∀ ls ns, _add_lines_run [] ls = .ok (ns, true, []) →
    reset_netlist ls = .ok ns ∧ save_netlist ns [] = ls.flatten := by
  intro ls ns h
  constructor
  · unfold reset_netlist
    rw [h]
    rfl
  · obtain ⟨consumed, hsplit, hw⟩ :=
      add_lines_flatten ls.length [] ls ns [] le_rfl h
    rw [save_netlist_empty_reg, hw]
    simp only [write_lines_list, List.nil_append]
    rw [List.append_nil] at hsplit
    rw [hsplit]

/-- C1 (witness): the amended round trip evaluated on the concrete
two-line file. -/
theorem spice_round_trip_witness :
    reset_netlist linesRoundTrip =
      .ok [Entry.line (str "* test\n"), Entry.line (str ".end\n")] ∧
    save_netlist [Entry.line (str "* test\n"), Entry.line (str ".end\n")] [] =
      linesRoundTrip.flatten :=
  spice_round_trip linesRoundTrip _ rfl

/-! ## Claim C5 -/

/-- C5: when the line source is exhausted before any directive token
beginning `.END` is seen, `_add_lines` reports `complete = false` (with the
whole input consumed), and `reset_netlist` fails with a fatal error rather
than returning a partial tree. -/
theorem incomplete_netlist_fatal :
    ∀ ls, (∀ l ∈ ls, end_token_seen l = false) →
    (∀ ns fin rest, _add_lines_run [] ls = .ok (ns, fin, rest) →
      fin = false ∧ rest = []) ∧
    ∀ ns, reset_netlist ls ≠ .ok ns := by
  intro ls hno
  refine ⟨fun ns fin rest h =>
    add_lines_no_end ls.length [] ls ns fin rest le_rfl hno h, ?_⟩
  intro ns hcontra
  unfold reset_netlist at hcontra
  cases hrun : _add_lines_run [] ls with
  | error e => rw [hrun] at hcontra; simp [Bind.bind, Except.bind] at hcontra
  | ok res =>
    obtain ⟨ns1, fin1, rest1⟩ := res
    have hfin :=
      add_lines_no_end ls.length [] ls ns1 fin1 rest1 le_rfl hno hrun
    rw [hrun, hfin.1] at hcontra
    simp [Bind.bind, Except.bind] at hcontra

/-- C5 (witness): a two-line source with no `.END` token: the build reports
incomplete and the load fails. -/
theorem incomplete_netlist_fatal_witness :
    (∀ ns fin rest,
      _add_lines_run [] [str "* a\n", str "R1 1 0 1k\n"] = .ok (ns, fin, rest) →
      fin = false ∧ rest = []) ∧
    ∀ ns, reset_netlist [str "* a\n", str "R1 1 0 1k\n"] ≠ .ok ns :=
  incomplete_netlist_fatal _ (by decide)

/-! ## Lemmas: clone shape (claim C6) -/

theorem findSubcktNameLine_cons_nomatch (l0 : Str) (rest : List Entry)
    (hm : reMatch subckt_regex l0 = none) :
    findSubcktNameLine (.line l0 :: rest) =
      (findSubcktNameLine rest).map
        (Option.map (fun (p : Nat × Nat × Nat) => (p.1 + 1, p.2.1, p.2.2))) := by
  rw [findSubcktNameLine, hm]

/-- If `findSubcktNameLine` returns an index, the entry there is a line that
`subckt_regex` matches. -/
theorem findSubcktNameLine_spec :
    ∀ (l : List Entry) i s e, findSubcktNameLine l = .ok (some (i, s, e)) →
    ∃ li, l.get? i = some (.line li) ∧ (reMatch subckt_regex li).isSome := by
  intro l
  induction l with
  | nil => intro i s e h; simp [findSubcktNameLine] at h
  | cons ent rest ih =>
    intro i s e h
    cases ent with
    | sub ns => simp [findSubcktNameLine] at h
    | line l0 =>
      rw [findSubcktNameLine] at h
      cases hm : reMatch subckt_regex l0 with
      | some res =>
        rw [hm] at h
        obtain ⟨pe, gs⟩ := res
        simp only at h
        cases hg : grpGet gs 1 with
        | none => rw [hg] at h; simp at h
        | some se =>
          rw [hg] at h
          obtain ⟨s0, e0⟩ := se
          simp only [Except.ok.injEq, Option.some.injEq, Prod.mk.injEq] at h
          obtain ⟨hi, -, -⟩ := h
          subst hi
          exact ⟨l0, by simp, by simp [hm]⟩
      | none =>
        rw [hm] at h
        cases hrec : findSubcktNameLine rest with
        | error e2 => rw [hrec] at h; simp [Except.map] at h
        | ok o =>
          rw [hrec] at h
          cases o with
          | none => simp [Except.map] at h
          | some p =>
            obtain ⟨i2, s2, e2⟩ := p
            simp only [Except.map, Option.map, Except.ok.injEq,
              Option.some.injEq, Prod.mk.injEq] at h
            obtain ⟨hi, -, -⟩ := h
            obtain ⟨li, hget, hmatch⟩ := ih i2 s2 e2 hrec
            subst hi
            exact ⟨li, by simpa using hget, hmatch⟩

/-- If `findEndsLine` returns an index, the entry there classifies as
`.ENDS`. -/
theorem findEndsLine_spec :
    ∀ (l : List Entry) j, findEndsLine l = .ok (some j) →
    ∃ ent, l.get? j = some ent ∧
      get_line_command ent = .ok (some (str ".ENDS")) := by
  intro l
  induction l with
  | nil => intro j h; simp [findEndsLine] at h
  | cons ent rest ih =>
    intro j h
    rw [findEndsLine] at h
    cases hcmd : get_line_command ent with
    | error e => rw [hcmd] at h; simp [Bind.bind, Except.bind] at h
    | ok oc =>
      rw [hcmd] at h
      simp only [Bind.bind, Except.bind] at h
      cases oc with
      | some c =>
        simp only at h
        by_cases hc : c = str ".ENDS"
        · rw [if_pos hc] at h
          simp only [Except.ok.injEq, Option.some.injEq] at h
          subst h
          exact ⟨ent, by simp, by rw [hcmd, hc]⟩
        · rw [if_neg hc] at h
          cases hrec : findEndsLine rest with
          | error e2 => rw [hrec] at h; simp [Except.map] at h
          | ok o =>
            rw [hrec] at h
            cases o with
            | none => simp [Except.map] at h
            | some j2 =>
              simp only [Except.map, Option.map, Except.ok.injEq,
                Option.some.injEq] at h
              obtain ⟨ent2, hget, hcmd2⟩ := ih j2 hrec
              subst h
              exact ⟨ent2, by simpa using hget, hcmd2⟩
      | none =>
        cases hrec : findEndsLine rest with
        | error e2 => rw [hrec] at h; simp [Except.map] at h
        | ok o =>
          rw [hrec] at h
          cases o with
          | none => simp [Except.map] at h
          | some j2 =>
            simp only [Except.map, Option.map, Except.ok.injEq,
              Option.some.injEq] at h
            obtain ⟨ent2, hget, hcmd2⟩ := ih j2 hrec
            subst h
            exact ⟨ent2, by simpa using hget, hcmd2⟩

/-- Renaming with `setname` never touches the provenance markers `clone`
put at the two ends: the `.SUBCKT` clause it rewrites lies strictly inside,
and the `.ENDS` line it replaces cannot be the closing comment marker. -/
theorem setname_marker_shape (nm : Str) (ns c : List Entry)
    (h : setname nm
      (Entry.line clone_open_marker :: ns ++ [Entry.line clone_close_marker]) =
      .ok c) :
    c.head? = some (.line clone_open_marker) ∧
    c.getLast? = some (.line clone_close_marker) := by
  have hLne :
      (Entry.line clone_open_marker :: ns ++ [Entry.line clone_close_marker]) ≠
        ([] : List Entry) := by simp
  rw [setname, if_neg hLne] at h
  simp only [List.cons_append] at h
  rw [findSubcktNameLine_cons_nomatch clone_open_marker
    (ns ++ [Entry.line clone_close_marker]) (by rfl)] at h
  cases hfd : findSubcktNameLine (ns ++ [Entry.line clone_close_marker]) with
  | error e => rw [hfd] at h; simp [Except.map, Bind.bind, Except.bind] at h
  | ok o =>
    rw [hfd] at h
    cases o with
    | none => simp [Except.map, Bind.bind, Except.bind] at h
    | some p =>
      obtain ⟨i, s, e⟩ := p
      simp only [Except.map, Option.map, Bind.bind, Except.bind] at h
      obtain ⟨li, hget, hmatch⟩ := findSubcktNameLine_spec _ _ _ _ hfd
      -- the matched line is inside `ns`, not the closing marker
      have hilt : i < (ns ++ [Entry.line clone_close_marker]).length := by
        rw [List.get?_eq_getElem?] at hget
        exact (List.getElem?_eq_some_iff.mp hget).1
      have hine : i ≠ ns.length := by
        intro hie
        subst hie
        rw [List.get?_eq_getElem?, List.getElem?_concat_length] at hget
        have : li = clone_close_marker := by
          have := Option.some.injEq _ _ ▸ hget
          cases hget
          rfl
        rw [this] at hmatch
        rw [show reMatch subckt_regex clone_close_marker = none from rfl]
          at hmatch
        simp at hmatch
      have hilt2 : i < ns.length := by
        simp at hilt
        omega
      -- the splice step
      have hgetL :
          (Entry.line clone_open_marker ::
            (ns ++ [Entry.line clone_close_marker])).get? (i + 1) =
            some (.line li) := by simpa using hget
      rw [hgetL] at h
      simp only at h
      rw [List.set_cons_succ] at h
      rw [List.set_append_left _ _ hilt2] at h
      -- find the .ENDS line in the suffix
      have hdropeq :
          ((Entry.line clone_open_marker ::
            (ns.set i (Entry.line (li.take s ++ nm ++ li.drop e)) ++
              [Entry.line clone_close_marker]))).drop (i + 1) =
          (ns.set i (Entry.line (li.take s ++ nm ++ li.drop e))).drop i ++
            [Entry.line clone_close_marker] := by
        simp only [List.drop_succ_cons]
        exact List.drop_append_of_le_length (by simp; omega)
      rw [hdropeq] at h
      cases hfe : findEndsLine
          ((ns.set i (Entry.line (li.take s ++ nm ++ li.drop e))).drop i ++
            [Entry.line clone_close_marker]) with
      | error e2 => rw [hfe] at h; simp [Bind.bind, Except.bind] at h
      | ok o2 =>
        rw [hfe] at h
        cases o2 with
        | none => simp [Bind.bind, Except.bind] at h
        | some j =>
          simp only [Bind.bind, Except.bind, Except.ok.injEq] at h
          obtain ⟨ent2, hget2, hcmd2⟩ := findEndsLine_spec _ _ hfe
          set nsx := ns.set i (Entry.line (li.take s ++ nm ++ li.drop e))
            with hnsx
          have hnsxlen : nsx.length = ns.length := by
            rw [hnsx]; simp
          have hjlt : j < (nsx.drop i ++ [Entry.line clone_close_marker]).length := by
            rw [List.get?_eq_getElem?] at hget2
            exact (List.getElem?_eq_some_iff.mp hget2).1
          have hjne : j ≠ (nsx.drop i).length := by
            intro hje
            subst hje
            rw [List.get?_eq_getElem?, List.getElem?_concat_length] at hget2
            have : ent2 = .line clone_close_marker := by cases hget2; rfl
            rw [this] at hcmd2
            rw [show get_line_command (.line clone_close_marker) =
              .ok (some (str "*")) from rfl] at hcmd2
            simp only [Except.ok.injEq, Option.some.injEq] at hcmd2
            exact absurd hcmd2 (by decide)
          have hjlt2 : j < (nsx.drop i).length := by
            have h2 : j < (nsx.drop i).length + 1 := by simpa using hjlt
            omega
          have hjlen : i + 1 + j ≤ ns.length := by
            rw [List.length_drop, hnsxlen] at hjlt2
            omega
          rw [← h]
          rw [show i + 1 + j = (i + j) + 1 by omega]
          constructor
          · rw [List.set_cons_succ]
            rfl
          · rw [List.set_cons_succ]
            rw [List.set_append_left _ _ (by simp [hnsxlen]; omega)]
            have : Entry.line clone_open_marker ::
                (nsx.set (i + j) (Entry.line (str ".ENDS " ++ nm ++ ['\n'])) ++
                  [Entry.line clone_close_marker]) =
              (Entry.line clone_open_marker ::
                nsx.set (i + j) (Entry.line (str ".ENDS " ++ nm ++ ['\n']))) ++
                [Entry.line clone_close_marker] := by simp
            rw [this, List.getLast?_concat]

/-- The trees `clone` produces are the original wrapped in the two
provenance comment markers; renaming preserves the markers at both ends. -/
theorem clone_markers :
    ∀ ns nm c, clone ns nm = .ok c →
    c.head? = some (.line clone_open_marker) ∧
    c.getLast? = some (.line clone_close_marker) := by
  intro ns nm c h
  unfold clone at h
  cases nm with
  | none =>
    simp only [Except.ok.injEq] at h
    subst h
    refine ⟨rfl, ?_⟩
    simpa using
      List.getLast?_concat (a := Entry.line clone_close_marker)
        (Entry.line clone_open_marker :: ns)
  | some nm =>
    simp only at h
    by_cases hnm : nm = ([] : Str)
    · rw [if_pos hnm] at h
      simp only [Except.ok.injEq] at h
      subst h
      refine ⟨rfl, ?_⟩
      simpa using
        List.getLast?_concat (a := Entry.line clone_close_marker)
          (Entry.line clone_open_marker :: ns)
    · rw [if_neg hnm] at h
      exact setname_marker_shape nm ns c h

/-! ## Claim C6 -/

/-- C6 (counterexample): a tree produced by copy-on-write clone creation
(`clone` with the path-derived new name, exactly as
`SpiceEditor._set_model_and_value` invokes it) has the provenance comment
marker as its first entry — not its opening `.SUBCKT` directive line. -/
theorem nested_tree_delimiters_counterexample :
    clone treeSubA (some (str "subA_X1")) = .ok
      [Entry.line clone_open_marker,
       Entry.line (str ".SUBCKT subA_X1 1 2\n"),
       Entry.line (str "R1 1 2 1k\n"),
       Entry.line (str ".ENDS subA_X1\n"),
       Entry.line clone_close_marker] ∧
    headIsOpener
      [Entry.line clone_open_marker,
       Entry.line (str ".SUBCKT subA_X1 1 2\n"),
       Entry.line (str "R1 1 2 1k\n"),
       Entry.line (str ".ENDS subA_X1\n"),
       Entry.line clone_close_marker] = false := by
  exact ⟨by rfl, by decide⟩

/-- C6 (amended): every nested sub-block tree produced by construction has
its opening `.SUBCKT` directive line as its first entry and a closing
`.END`-token line as its last entry, recursively; a tree produced by
`clone` (copy-on-write creation) instead carries the provenance comment
markers as its first and last entries, which enclose the original
delimiters. -/
theorem nested_tree_delimiters :
    (∀ ls ns fin rest, _add_lines_run [] ls = .ok (ns, fin, rest) →
      entriesWF ns = true) ∧
    (∀ ns nm c, clone ns nm = .ok c →
      c.head? = some (.line clone_open_marker) ∧
      c.getLast? = some (.line clone_close_marker)) := by
  refine ⟨?_, clone_markers⟩
  intro ls ns fin rest h
  exact add_lines_wf ls.length [] ls ns fin rest le_rfl h (by simp [entriesWF])

/-- C6 (witness): the invariant evaluated on the concretely parsed
`linesOneLevel` result and on a concrete clone. -/
theorem nested_tree_delimiters_witness :
    entriesWF
      [Entry.line (str "* main\n"), Entry.line (str "X1 a b subA\n"),
       Entry.line (str "X2 c d subA\n"), Entry.sub treeSubA,
       Entry.line (str ".END\n")] = true ∧
    ((Entry.line clone_open_marker :: treeSubA ++
        [Entry.line clone_close_marker]).head? =
      some (.line clone_open_marker) ∧
     (Entry.line clone_open_marker :: treeSubA ++
        [Entry.line clone_close_marker]).getLast? =
      some (.line clone_close_marker)) :=
  ⟨nested_tree_delimiters.1 linesOneLevel _ true [] rfl,
   nested_tree_delimiters.2 treeSubA none _ rfl⟩

/-! ## Claim C2 -/

/-- C2: editing an element two levels deep (`X1:X2:R1`) does not create two
clone-registry entries — it raises `FileNotFoundError` before touching the
registry.  Resolving the second hop calls
`find_subckt_in_lib(self.circuit_file, ...)` on a nested `SpiceCircuit`,
whose `circuit_file` property is `Path('')`, and opening that path fails.
The editor state is discarded with the exception, so no clone is ever
registered. -/
theorem two_level_edit_crashes :
    (reset_netlist_editor filesTwoLevel (str "main.net")).bind
      (fun st => set_component_value_editor filesTwoLevel (str "main.net") st
        (str "X1:X2:R1") (str "2k")) = .error (.fileNotFound []) := by
  rfl

/-! ## Lemmas: the clone registry (claim C3) -/

theorem regGetKey_regSetKey_isSome (reg : Registry) (key k : Str)
    (v : List Entry) :
    (regGetKey (regSetKey reg key v) k).isSome =
      (regGetKey reg k).isSome := by
  induction reg with
  | nil => simp [regSetKey, regGetKey]
  | cons p rest ih =>
    obtain ⟨k0, v0⟩ := p
    by_cases hk : k0 = key
    · subst hk
      rw [regSetKey, if_pos rfl]
      by_cases hkk : k0 = k
      · subst hkk; simp [regGetKey]
      · simp [regGetKey, hkk]
    · rw [regSetKey, if_neg hk]
      by_cases hkk : k0 = k
      · subst hkk; simp [regGetKey]
      · simp [regGetKey, hkk, ih]

theorem regSetKey_length (reg : Registry) (key : Str) (v : List Entry) :
    (regSetKey reg key v).length = reg.length := by
  induction reg with
  | nil => rfl
  | cons p rest ih =>
    obtain ⟨k0, v0⟩ := p
    by_cases hk : k0 = key
    · rw [regSetKey, if_pos hk]; rfl
    · rw [regSetKey, if_neg hk]; simp [ih]

theorem regGetKey_append_of_isSome {reg : Registry} (l2 : Registry) {k : Str}
    (h : (regGetKey reg k).isSome = true) :
    regGetKey (reg ++ l2) k = regGetKey reg k := by
  induction reg with
  | nil => simp [regGetKey] at h
  | cons p rest ih =>
    obtain ⟨k0, v0⟩ := p
    by_cases hkk : k0 = k
    · simp [regGetKey, hkk]
    · simp only [regGetKey, hkk, if_false, List.cons_append,
        if_neg hkk] at h ⊢
      exact ih h

theorem regGetKey_append_self (reg : Registry) (key : Str) (v : List Entry) :
    (regGetKey (reg ++ [(key, v)]) key).isSome = true := by
  induction reg with
  | nil => simp [regGetKey]
  | cons p rest ih =>
    obtain ⟨k0, v0⟩ := p
    by_cases hkk : k0 = key
    · simp [regGetKey, hkk]
    · simp only [List.cons_append, regGetKey, hkk, if_neg hkk]
      exact ih

/-- Hierarchical edits never remove registry keys. -/
theorem editor_set_registry_mono (fs : Files) (cf : Str) (fuel : Nat) :
    ∀ st comp v st',
    _set_model_and_value_editor fs cf fuel st comp v = .ok st' →
    ∀ k, (regGetKey st.modified_subcircuits k).isSome = true →
      (regGetKey st'.modified_subcircuits k).isSome = true := by
  induction fuel with
  | zero =>
    intro st comp v st' h
    simp [_set_model_and_value_editor] at h
  | succ fuel ih =>
    intro st comp v st' h k hk
    rw [_set_model_and_value_editor] at h
    cases hhd : comp.head? with
    | none => rw [hhd] at h; simp at h
    | some pfx =>
      rw [hhd] at h
      simp only at h
      by_cases hcond : pfx = 'X' ∧ ':' ∈ comp
      · rw [if_pos hcond] at h
        cases hreg : regGetKey st.modified_subcircuits
            (joinWith ':' (splitAll ':' comp).dropLast) with
        | some sub =>
          rw [hreg] at h
          simp only at h
          cases hc : _set_model_and_value ((splitAll ':' comp).getLast?.getD [])
              v sub with
          | error e => rw [hc] at h; simp [Bind.bind, Except.bind] at h
          | ok sub' =>
            rw [hc] at h
            simp only [Bind.bind, Except.bind, Except.ok.injEq] at h
            rw [← h]
            simpa [regGetKey_regSetKey_isSome] using hk
        | none =>
          rw [hreg] at h
          simp only at h
          cases hsc : get_subcircuit fs (comp.length + 1) cf st.netlist
              (joinWith ':' (splitAll ':' comp).dropLast) with
          | error e => rw [hsc] at h; simp [Bind.bind, Except.bind] at h
          | ok orig =>
            rw [hsc] at h
            simp only [Bind.bind, Except.bind] at h
            cases hnm : nameOf orig with
            | error e => rw [hnm] at h; simp [Bind.bind, Except.bind] at h
            | ok nm =>
              rw [hnm] at h
              simp only [Bind.bind, Except.bind] at h
              cases hcl : clone orig (some (nm ++ ['_'] ++
                  joinWith '_' (splitAll ':' comp).dropLast)) with
              | error e => rw [hcl] at h; simp [Bind.bind, Except.bind] at h
              | ok subc =>
                rw [hcl] at h
                simp only [Bind.bind, Except.bind] at h
                cases hrec : _set_model_and_value_editor fs cf fuel
                    { st with modified_subcircuits :=
                        st.modified_subcircuits ++
                          [(joinWith ':' (splitAll ':' comp).dropLast, subc)] }
                    (joinWith ':' (splitAll ':' comp).dropLast)
                    (nm ++ ['_'] ++ joinWith '_' (splitAll ':' comp).dropLast)
                    with
                | error e => rw [hrec] at h; simp [Bind.bind, Except.bind] at h
                | ok st2 =>
                  rw [hrec] at h
                  simp only [Bind.bind, Except.bind] at h
                  cases hc2 : _set_model_and_value
                      ((splitAll ':' comp).getLast?.getD []) v subc with
                  | error e => rw [hc2] at h; simp [Bind.bind, Except.bind] at h
                  | ok subc' =>
                    rw [hc2] at h
                    simp only [Except.ok.injEq] at h
                    rw [← h]
                    have hk1 : (regGetKey
                        (st.modified_subcircuits ++
                          [(joinWith ':' (splitAll ':' comp).dropLast, subc)])
                        k).isSome = true := by
                      rw [regGetKey_append_of_isSome _ hk]
                      exact hk
                    have hk2 := ih _ _ _ _ hrec k hk1
                    simpa [regGetKey_regSetKey_isSome] using hk2
      · rw [if_neg hcond] at h
        cases hc : _set_model_and_value comp v st.netlist with
        | error e => rw [hc] at h; simp [Bind.bind, Except.bind] at h
        | ok ns' =>
          rw [hc] at h
          simp only [Bind.bind, Except.bind, Except.ok.injEq] at h
          rw [← h]
          exact hk

/-- A successful hierarchical edit leaves its path prefix registered. -/
theorem editor_set_registers (fs : Files) (cf : Str) (fuel : Nat)
    (st : EditorState) (comp v : Str) (st' : EditorState)
    (hx : comp.head? = some 'X') (hd : ':' ∈ comp)
    (h : _set_model_and_value_editor fs cf fuel st comp v = .ok st') :
    (regGetKey st'.modified_subcircuits
      (joinWith ':' (splitAll ':' comp).dropLast)).isSome = true := by
  cases fuel with
  | zero => simp [_set_model_and_value_editor] at h
  | succ fuel =>
    rw [_set_model_and_value_editor, hx] at h
    simp only at h
    rw [if_pos (⟨by trivial, hd⟩ : _ ∧ _)] at h
    cases hreg : regGetKey st.modified_subcircuits
        (joinWith ':' (splitAll ':' comp).dropLast) with
    | some sub =>
      rw [hreg] at h
      simp only at h
      cases hc : _set_model_and_value ((splitAll ':' comp).getLast?.getD [])
          v sub with
      | error e => rw [hc] at h; simp [Bind.bind, Except.bind] at h
      | ok sub' =>
        rw [hc] at h
        simp only [Bind.bind, Except.bind, Except.ok.injEq] at h
        rw [← h]
        simp only [regGetKey_regSetKey_isSome]
        simp [hreg]
    | none =>
      rw [hreg] at h
      simp only at h
      cases hsc : get_subcircuit fs (comp.length + 1) cf st.netlist
          (joinWith ':' (splitAll ':' comp).dropLast) with
      | error e => rw [hsc] at h; simp [Bind.bind, Except.bind] at h
      | ok orig =>
        rw [hsc] at h
        simp only [Bind.bind, Except.bind] at h
        cases hnm : nameOf orig with
        | error e => rw [hnm] at h; simp [Bind.bind, Except.bind] at h
        | ok nm =>
          rw [hnm] at h
          simp only [Bind.bind, Except.bind] at h
          cases hcl : clone orig (some (nm ++ ['_'] ++
              joinWith '_' (splitAll ':' comp).dropLast)) with
          | error e => rw [hcl] at h; simp [Bind.bind, Except.bind] at h
          | ok subc =>
            rw [hcl] at h
            simp only [Bind.bind, Except.bind] at h
            cases hrec : _set_model_and_value_editor fs cf fuel
                { st with modified_subcircuits :=
                    st.modified_subcircuits ++
                      [(joinWith ':' (splitAll ':' comp).dropLast, subc)] }
                (joinWith ':' (splitAll ':' comp).dropLast)
                (nm ++ ['_'] ++ joinWith '_' (splitAll ':' comp).dropLast)
                with
            | error e => rw [hrec] at h; simp [Bind.bind, Except.bind] at h
            | ok st2 =>
              rw [hrec] at h
              simp only [Bind.bind, Except.bind] at h
              cases hc2 : _set_model_and_value
                  ((splitAll ':' comp).getLast?.getD []) v subc with
              | error e => rw [hc2] at h; simp [Bind.bind, Except.bind] at h
              | ok subc' =>
                rw [hc2] at h
                simp only [Except.ok.injEq] at h
                rw [← h]
                simp only [regGetKey_regSetKey_isSome]
                exact editor_set_registry_mono fs cf fuel _ _ _ _ hrec _
                  (regGetKey_append_self _ _ _)

/-! ## Claim C3 -/

/-- C3: two `set_component_value` calls on the same hierarchical path reuse
the clone the first call created: the registry does not grow, and the value
stored in the clone after the second edit is the second edit's value
(demonstrated on `X1:R1` with `2k` then `3k`). -/
theorem set_same_path_twice :
    (∀ fs cf st p v1 v2 st1 st2,
      p.head? = some 'X' → ':' ∈ p →
      set_component_value_editor fs cf st p v1 = .ok st1 →
      set_component_value_editor fs cf st1 p v2 = .ok st2 →
      st2.modified_subcircuits.length =
        st1.modified_subcircuits.length) ∧
    (set_component_value_editor filesOneLevel (str "main.net") stOneLevel0
        (str "X1:R1") (str "2k") = .ok stOneLevel1 ∧
      set_component_value_editor filesOneLevel (str "main.net") stOneLevel1
        (str "X1:R1") (str "3k") = .ok stOneLevel2 ∧
      stOneLevel1.modified_subcircuits.length = 1 ∧
      stOneLevel2.modified_subcircuits.length = 1 ∧
      get_component_value_editor filesOneLevel (str "main.net") stOneLevel2
        (str "X1:R1") = .ok (str "3k")) := by
  constructor
  · intro fs cf st p v1 v2 st1 st2 hx hd h1 h2
    have hreg := editor_set_registers fs cf (p.length + 1) st p v1 st1 hx hd h1
    rw [set_component_value_editor, _set_model_and_value_editor, hx] at h2
    simp only at h2
    rw [if_pos (⟨by trivial, hd⟩ : _ ∧ _)] at h2
    obtain ⟨sub, hsub⟩ := Option.isSome_iff_exists.mp hreg
    rw [hsub] at h2
    simp only at h2
    cases hc : _set_model_and_value ((splitAll ':' p).getLast?.getD [])
        v2 sub with
    | error e => rw [hc] at h2; simp [Bind.bind, Except.bind] at h2
    | ok sub' =>
      rw [hc] at h2
      simp only [Bind.bind, Except.bind, Except.ok.injEq] at h2
      rw [← h2]
      simp [regSetKey_length]
  · exact ⟨by rfl, by rfl, by rfl, by rfl, by rfl⟩

/-- C3 (witness): the registry-size property applied at the concrete
one-level scenario. -/
theorem set_same_path_twice_witness :
    stOneLevel2.modified_subcircuits.length =
      stOneLevel1.modified_subcircuits.length :=
  set_same_path_twice.1 filesOneLevel (str "main.net") stOneLevel0
    (str "X1:R1") (str "2k") (str "3k") stOneLevel1 stOneLevel2 rfl
    (by decide) (by rfl) (by rfl)

/-! ## Claim C4 -/

/-- C4 (counterexample): the claim fails for the kinds whose pattern has
no `value` group.  The FRA-wiggler line `"@1 n1 n2 pp0=10\n"` has leading
designator `@1` and matches its kind's pattern (`REPLACE_REGXES['@']`), yet
`set_component_value("@1", "2")` raises `IndexError` (`m.start('value')`,
no such group) instead of splicing the value span. -/
theorem set_component_value_splices_counterexample :
    (∃ pe gs, reMatch rxAt (str "@1 n1 n2 pp0=10\n") = some (pe, gs)) ∧
    _get_line_starting_with (str "@1") [.line (str "@1 n1 n2 pp0=10\n")] =
      .ok 0 ∧
    _set_model_and_value (str "@1") (str "2")
        [.line (str "@1 n1 n2 pp0=10\n")] = .error .indexErr :=
  ⟨⟨15, [(4, 9, 15), (5, 9, 15), (2, 2, 8), (3, 5, 8), (3, 2, 5), (1, 0, 2)],
    by with_unfolding_all rfl⟩,
   by with_unfolding_all rfl, by with_unfolding_all rfl⟩

/-- C4 (amended): for the kinds whose pattern defines a `value` capture
group (all but `A`, `@` and `Ö`), when a line is located by its leading
designator and matches its kind's pattern, `set_component_value` splices
the new text into exactly the pattern's `value` span, leaving every other
byte of the line and every other entry untouched; for the three kinds
without a `value` group a located, matching line makes it raise
`IndexError` instead.  Concretely, `set_component_value("R1", "10k")` on
`"R1 n1 n2 3.3k"` yields `"R1 n1 n2 10k"`. -/
theorem set_component_value_splices :
    (∀ ns ref v pfx rx vidx i l pe gs s e,
      ref.head? = some pfx →
      component_replace_regexs pfx = some (rx, some vidx) →
      _get_line_starting_with ref ns = .ok i →
      ns.get? i = some (.line l) →
      reMatch rx l = some (pe, gs) →
      grpGet gs vidx = some (s, e) →
      _set_model_and_value ref v ns =
        .ok (ns.set i (.line (l.take s ++ v ++ l.drop e))) ∧
      ∀ j, j ≠ i →
        (ns.set i (.line (l.take s ++ v ++ l.drop e))).get? j = ns.get? j) ∧
    (∀ ns ref v pfx rx i l pe gs,
      ref.head? = some pfx →
      component_replace_regexs pfx = some (rx, none) →
      _get_line_starting_with ref ns = .ok i →
      ns.get? i = some (.line l) →
      reMatch rx l = some (pe, gs) →
      _set_model_and_value ref v ns = .error .indexErr) ∧
    _set_model_and_value (str "R1") (str "10k")
        [.line (str "R1 n1 n2 3.3k\n")] =
      .ok [.line (str "R1 n1 n2 10k\n")] := by
  refine ⟨?_, ?_, ?_⟩
  · intro ns ref v pfx rx vidx i l pe gs s e hhd htab hline hget hmatch hgrp
    constructor
    · rw [_set_model_and_value, hhd]
      simp only
      rw [htab]
      simp only
      rw [hline]
      simp only [Bind.bind, Except.bind]
      rw [hget]
      simp only
      rw [hmatch]
      simp only
      rw [hgrp]
    · intro j hj
      rw [List.get?_eq_getElem?, List.get?_eq_getElem?]
      exact List.getElem?_set_ne (Ne.symm hj)
  · intro ns ref v pfx rx i l pe gs hhd htab hline hget hmatch
    rw [_set_model_and_value, hhd]
    simp only
    rw [htab]
    simp only
    rw [hline]
    simp only [Bind.bind, Except.bind]
    rw [hget]
    simp only
    rw [hmatch]
  · rfl

/-- C4 (witness): the splice evaluated on the concrete resistor line, with
the frame property checked at the only other index. -/
theorem set_component_value_splices_witness :
    _set_model_and_value (str "R1") (str "10k")
        [.line (str "R1 n1 n2 3.3k\n")] =
      .ok ([Entry.line (str "R1 n1 n2 3.3k\n")].set 0
        (.line ((str "R1 n1 n2 3.3k\n").take 9 ++ str "10k" ++
          (str "R1 n1 n2 3.3k\n").drop 13))) ∧
    ([Entry.line (str "R1 n1 n2 3.3k\n")].set 0
        (.line ((str "R1 n1 n2 3.3k\n").take 9 ++ str "10k" ++
          (str "R1 n1 n2 3.3k\n").drop 13))).get? 1 =
      ([Entry.line (str "R1 n1 n2 3.3k\n")] : List Entry).get? 1 :=
  ⟨(set_component_value_splices.1 [.line (str "R1 n1 n2 3.3k\n")]
      (str "R1") (str "10k") 'R' rxR 5 0 (str "R1 n1 n2 3.3k\n") _ _ 9 13
      rfl rfl rfl rfl rfl rfl).1,
   (set_component_value_splices.1 [.line (str "R1 n1 n2 3.3k\n")]
      (str "R1") (str "10k") 'R' rxR 5 0 (str "R1 n1 n2 3.3k\n") _ _ 9 13
      rfl rfl rfl rfl rfl rfl).2 1 (by decide)⟩

/-! ## Claim C7 -/

/-- C7: on a line whose first non-space/tab character, uppercased, is not
an element-kind key, not `+`, not a comment/blank marker and not `.`, the
classifier does fail — but with the `TypeError` produced by applying the
two-placeholder format string `'Unrecognized command in line "%s" of file
%s'` to the line alone, not with a `SyntaxError` naming the offending line
and its source location. -/
theorem unrecognized_leading_char_typeerror :
    ∀ l c, first_non_blank l = some c →
    pyUpper c ∉ replace_regxes_keys →
    pyUpper c ≠ '+' →
    ¬ (pyUpper c = '#' ∨ pyUpper c = ';' ∨ pyUpper c = '*' ∨
       pyUpper c = '\n' ∨ pyUpper c = '\r') →
    pyUpper c ≠ '.' →
    get_line_command_str l = .error .formatTypeError := by
  intro l
  induction l with
  | nil => intro c hc; simp [first_non_blank] at hc
  | cons c0 rest ih =>
    intro c hc h1 h2 h3 h4
    by_cases hws : c0 = ' ' ∨ c0 = '\t'
    · rw [get_line_command_str, if_pos hws]
      refine ih c ?_ h1 h2 h3 h4
      simpa [first_non_blank, List.dropWhile_cons, hws] using hc
    · have hcc : c0 = c := by
        simp [first_non_blank, List.dropWhile_cons, hws] at hc
        exact hc
      subst hcc
      rw [get_line_command_str, if_neg hws]
      simp only
      rw [if_neg h1, if_neg h2, if_neg h3, if_neg h4]

/-- C7 (witness): the classifier evaluated on a line led by `~`. -/
theorem unrecognized_leading_char_typeerror_witness :
    get_line_command_str (str "~foo 1 2\n") = .error .formatTypeError :=
  unrecognized_leading_char_typeerror (str "~foo 1 2\n") '~' rfl (by decide)
    (by decide) (by decide) (by decide)

/-! ## Claim C9 -/

/-- C9 (counterexample): with the parameter absent, the directive line
`set_parameter` inserts is `'.PARAM TEMP=80  ; Batch instruction\n'` — no
entry of the result equals the claimed bare `"TEMP=80"` format. -/
theorem set_parameter_line_format_counterexample :
    set_parameter (str "TEMP") (str "80") nsParamDemo = .ok
      [.line (str "* hi\n"),
       .line (param_insert_line (str "TEMP") (str "80")),
       .line (str ".backanno\n"), .line (str ".end\n")] ∧
    Entry.line (str "TEMP=80") ∉
      ([.line (str "* hi\n"),
        .line (param_insert_line (str "TEMP") (str "80")),
        .line (str ".backanno\n"), .line (str ".end\n")] : List Entry) := by
  exact ⟨by rfl, by decide⟩

/-- C9 (amended): for a parameter the `.PARAM` search does not find,
`set_parameter` inserts the single directive line
`'.PARAM {name}={value}  ; Batch instruction' + newline` at index
`len(netlist) - 2` (two entries before the final one when the terminator is
last), leaving all other entries unchanged in order. -/
theorem set_parameter_inserts :
    ∀ ns p v,
    _get_line_matching (str ".PARAM") (reSearch (rxParam p)) ns = .ok none →
    set_parameter p v ns =
      .ok (ns.insertIdx (ns.length - 2) (.line (param_insert_line p v))) ∧
    (ns.insertIdx (ns.length - 2) (.line (param_insert_line p v))).length =
      ns.length + 1 ∧
    (ns.insertIdx (ns.length - 2)
        (.line (param_insert_line p v))).eraseIdx (ns.length - 2) = ns := by
  intro ns p v h
  refine ⟨?_, List.length_insertIdx _ _ (by omega),
    List.eraseIdx_insertIdx _ _⟩
  rw [set_parameter, h]
  rfl

/-- C9 (witness): the insertion evaluated on the concrete three-line
netlist. -/
theorem set_parameter_inserts_witness :
    set_parameter (str "TEMP") (str "80") nsParamDemo =
      .ok (nsParamDemo.insertIdx (nsParamDemo.length - 2)
        (.line (param_insert_line (str "TEMP") (str "80")))) ∧
    (nsParamDemo.insertIdx (nsParamDemo.length - 2)
        (.line (param_insert_line (str "TEMP") (str "80")))).length =
      nsParamDemo.length + 1 ∧
    (nsParamDemo.insertIdx (nsParamDemo.length - 2)
        (.line (param_insert_line (str "TEMP") (str "80")))).eraseIdx
      (nsParamDemo.length - 2) = nsParamDemo :=
  set_parameter_inserts nsParamDemo (str "TEMP") (str "80") (by rfl)

/-! ## Claim C10 -/

/-- C10: `remove_component` replaces the located element's line with the
empty string in place: the entry count is unchanged and every other entry
keeps its position and content; concretely on `nsRemoveDemo` the `R1` line
is blanked. -/
theorem remove_component_blanks :
    (∀ ns d i, _get_line_starting_with d ns = .ok i →
      remove_component d ns = .ok (ns.set i (.line [])) ∧
      (ns.set i (.line [])).length = ns.length ∧
      ∀ j, j ≠ i → (ns.set i (.line [])).get? j = ns.get? j) ∧
    remove_component (str "R1") nsRemoveDemo =
      .ok [.line (str "* c\n"), .line [], .line (str ".end\n")] := by
  constructor
  · intro ns d i h
    refine ⟨?_, by simp, ?_⟩
    · rw [remove_component, h]
      rfl
    · intro j hj
      rw [List.get?_eq_getElem?, List.get?_eq_getElem?]
      exact List.getElem?_set_ne (Ne.symm hj)
  · rfl

/-- C10 (witness): the removal evaluated on the concrete netlist. -/
theorem remove_component_blanks_witness :
    remove_component (str "R1") nsRemoveDemo =
      .ok (nsRemoveDemo.set 1 (.line [])) ∧
    (nsRemoveDemo.set 1 (.line [])).length = nsRemoveDemo.length :=
  ⟨(remove_component_blanks.1 nsRemoveDemo (str "R1") 1 rfl).1,
   (remove_component_blanks.1 nsRemoveDemo (str "R1") 1 rfl).2.1⟩

/-! ### The value codec (claim C8) -/

theorem qnpow_eq_pow (q : ℚ) (n : ℕ) : qnpow q n = q ^ n := by
  induction n with
  | zero => rfl
  | succ k ih => rw [qnpow, ih, pow_succ]; ring

theorem qzpow_eq_zpow (q : ℚ) (z : ℤ) : qzpow q z = q ^ z := by
  unfold qzpow
  by_cases h : 0 ≤ z
  · rw [if_pos h, qnpow_eq_pow, ← zpow_natCast, Int.toNat_of_nonneg h]
  · rw [if_neg h, qnpow_eq_pow, ← zpow_natCast, Int.toNat_of_nonneg (by omega : (0:ℤ) ≤ -z),
      ← zpow_neg, neg_neg]

theorem natDigitsFuel_eq_digits : ∀ fuel n, n ≤ fuel →
    natDigitsFuel fuel n = Nat.digits 10 n := by
  intro fuel
  induction fuel with
  | zero => intro n hn; interval_cases n; simp [natDigitsFuel]
  | succ k ih =>
    intro n hn
    by_cases h0 : n = 0
    · subst h0; simp [natDigitsFuel]
    · have hd : n / 10 < n := Nat.div_lt_self (Nat.pos_of_ne_zero h0) (by norm_num)
      rw [natDigitsFuel, if_neg h0,
        Nat.digits_def' (by norm_num : 1 < 10) (Nat.pos_of_ne_zero h0),
        ih (n / 10) (by omega)]

theorem natDigitChars_eq (n : ℕ) :
    natDigitChars n = ((Nat.digits 10 n).reverse).map digitChar := by
  rw [natDigitChars, natDigitsFuel_eq_digits n n le_rfl]

theorem digitChar_toNat (d : ℕ) (h : d < 10) : (digitChar d).toNat = 48 + d := by
  interval_cases d <;> rfl

theorem isDigitCh_digitChar (d : ℕ) (h : d < 10) : isDigitCh (digitChar d) = true := by
  interval_cases d <;> rfl

theorem natDigitChars_length (n : ℕ) (h : n ≠ 0) :
    (natDigitChars n).length = Nat.log 10 n + 1 := by
  rw [natDigitChars_eq, List.length_map, List.length_reverse, Nat.digits_len 10 n (by norm_num) h]

theorem natDigitChars_digits (n : ℕ) :
    ∀ c ∈ natDigitChars n, isDigitCh c = true := by
  rw [natDigitChars_eq]
  intro c hc
  obtain ⟨d, hd, rfl⟩ := List.mem_map.1 hc
  exact isDigitCh_digitChar d (Nat.digits_lt_base (by norm_num) (List.mem_reverse.1 hd))

theorem parseDigitsNat_shift : ∀ (b : Str) (acc : ℕ),
    b.foldl (fun acc c => 10 * acc + (c.toNat - 48)) acc =
      acc * 10 ^ b.length + parseDigitsNat b := by
  intro b
  induction b with
  | nil => intro acc; simp [parseDigitsNat]
  | cons c t ih =>
    intro acc
    show t.foldl _ (10 * acc + (c.toNat - 48)) = _
    rw [ih (10 * acc + (c.toNat - 48))]
    have : parseDigitsNat (c :: t) = (c.toNat - 48) * 10 ^ t.length + parseDigitsNat t := by
      show t.foldl _ (10 * 0 + (c.toNat - 48)) = _
      rw [ih (10 * 0 + (c.toNat - 48))]
      ring_nf
    rw [this]
    simp [List.length_cons]
    ring

theorem parseDigitsNat_append (a b : Str) :
    parseDigitsNat (a ++ b) = parseDigitsNat a * 10 ^ b.length + parseDigitsNat b := by
  show (a ++ b).foldl _ 0 = _
  rw [List.foldl_append, parseDigitsNat_shift b]
  rfl

theorem parseDigitsNat_replicate_zero (k : ℕ) :
    parseDigitsNat (List.replicate k '0') = 0 := by
  induction k with
  | zero => rfl
  | succ j ih =>
    show (List.replicate (j+1) '0').foldl _ 0 = 0
    rw [List.replicate_succ, List.foldl_cons, parseDigitsNat_shift]
    simpa using ih

theorem parseDigitsNat_natDigitChars (n : ℕ) : parseDigitsNat (natDigitChars n) = n := by
  rw [natDigitChars_eq]
  have key : ∀ l : List ℕ, (∀ d ∈ l, d < 10) →
      parseDigitsNat ((l.reverse).map digitChar) = Nat.ofDigits 10 l := by
    intro l
    induction l with
    | nil => intro _; rfl
    | cons d t ih =>
      intro hlt
      rw [List.reverse_cons, List.map_append, parseDigitsNat_append, Nat.ofDigits_cons,
        ih (fun x hx => hlt x (List.mem_cons_of_mem d hx))]
      have hd : parseDigitsNat [digitChar d] = d := by
        show 10 * 0 + ((digitChar d).toNat - 48) = d
        rw [digitChar_toNat d (hlt d (List.mem_cons_self d t))]
        omega
      simp [hd]
      ring
  rw [key (Nat.digits 10 n) (fun d hd => Nat.digits_lt_base (by norm_num) hd),
    Nat.ofDigits_digits]

theorem stripZeros_decomp (s : Str) :
    s = stripZeros s ++ List.replicate (s.length - (stripZeros s).length) '0' := by
  unfold stripZeros
  conv_lhs => rw [← List.reverse_reverse s, ← List.takeWhile_append_dropWhile (p := (· = '0'))
    (l := s.reverse)]
  rw [List.reverse_append]
  congr 1
  · rw [List.reverse_eq_iff]
    have hall : ∀ c ∈ s.reverse.takeWhile (· = '0'), c = '0' := by
      intro c hc
      simpa using List.mem_takeWhile_imp hc
    rw [List.eq_replicate_iff.2 ⟨rfl, hall⟩, List.reverse_replicate]
    congr 1
    have h1 : s.length = (s.reverse.takeWhile (· = '0')).length +
        (s.reverse.dropWhile (· = '0')).length := by
      rw [← List.length_append, List.takeWhile_append_dropWhile, List.length_reverse]
    simp only [List.length_reverse]
    omega

theorem stripZeros_last_ne_zero (s : Str) (h : stripZeros s ≠ []) :
    ∃ d, (stripZeros s).getLast? = some d ∧ d ≠ '0' := by
  unfold stripZeros at *
  rw [List.getLast?_reverse]
  have hne : s.reverse.dropWhile (· = '0') ≠ [] := by
    intro hnil; rw [hnil] at h; exact h rfl
  obtain ⟨d, t, hdt⟩ := List.exists_cons_of_ne_nil hne
  refine ⟨d, by rw [hdt]; rfl, ?_⟩
  have := List.head?_dropWhile_not (fun c => decide (c = '0')) s.reverse
  rw [hdt] at this
  simp at this
  exact this

theorem mem_stripZeros (s : Str) (c : Char) (hc : c ∈ stripZeros s) : c ∈ s := by
  have hd := stripZeros_decomp s
  have hmem : c ∈ stripZeros s ++ List.replicate (s.length - (stripZeros s).length) '0' :=
    List.mem_append_left _ hc
  rw [← hd] at hmem
  exact hmem

theorem natLogFuel_spec (b : ℕ) (hb : 1 < b) : ∀ fuel n, 0 < n → n ≤ fuel →
    b ^ natLogFuel b fuel n ≤ n ∧ n < b ^ (natLogFuel b fuel n + 1) := by
  intro fuel
  induction fuel with
  | zero => intro n h1 h2; omega
  | succ k ih =>
    intro n h1 h2
    rw [natLogFuel]
    by_cases hbn : b ≤ n
    · rw [if_pos ⟨hb, hbn⟩]
      have hd : 0 < n / b := Nat.div_pos hbn (by omega)
      have hdk : n / b ≤ k := by
        have := Nat.div_lt_self h1 hb
        omega
      obtain ⟨l1, l2⟩ := ih (n / b) hd hdk
      constructor
      · calc b ^ (natLogFuel b k (n / b) + 1) = b ^ natLogFuel b k (n / b) * b := by ring
        _ ≤ n / b * b := Nat.mul_le_mul_right b l1
        _ ≤ n := Nat.div_mul_le_self n b
      · have hdm := Nat.div_add_mod n b
        have hmod : n % b < b := Nat.mod_lt _ (by omega)
        have hstep : n < (n / b + 1) * b := by
          have hx : (n / b + 1) * b = b * (n / b) + b := by ring
          omega
        calc n < (n / b + 1) * b := hstep
        _ ≤ b ^ (natLogFuel b k (n / b) + 1) * b := by
            exact Nat.mul_le_mul_right b (by omega)
        _ = b ^ (natLogFuel b k (n / b) + 1 + 1) := by ring
    · rw [if_neg (by tauto)]
      simpa using ⟨h1, by omega⟩

theorem natClogFuel_of_le_one (b : ℕ) (fuel n : ℕ) (h : ¬1 < n) :
    natClogFuel b fuel n = 0 := by
  cases fuel with
  | zero => rfl
  | succ k => rw [natClogFuel, if_neg (by tauto)]

theorem natClogFuel_spec (b : ℕ) (hb : 1 < b) : ∀ fuel n, 1 < n → n ≤ fuel →
    b ^ (natClogFuel b fuel n - 1) < n ∧ n ≤ b ^ natClogFuel b fuel n ∧
      0 < natClogFuel b fuel n := by
  intro fuel
  induction fuel with
  | zero => intro n h1 h2; omega
  | succ k ih =>
    intro n h1 h2
    rw [natClogFuel, if_pos ⟨hb, h1⟩]
    set m := (n + b - 1) / b with hm
    have hdm : b * m + (n + b - 1) % b = n + b - 1 := Nat.div_add_mod (n + b - 1) b
    have hr : (n + b - 1) % b < b := Nat.mod_lt _ (by omega)
    by_cases hm1 : 1 < m
    · have hnb : b < n := by
        by_contra hc
        push_neg at hc
        have : m ≤ 1 := by
          rw [hm]
          have : n + b - 1 < 2 * b := by omega
          have := Nat.div_lt_of_lt_mul (by omega : n + b - 1 < b * 2)
          omega
        omega
      have hmk : m ≤ k := by
        have hmn : m < n := by
          rw [hm]
          have h8 : n + n ≤ b * n := by
            calc n + n = 2 * n := by ring
            _ ≤ b * n := Nat.mul_le_mul_right n hb
          exact Nat.div_lt_of_lt_mul (by omega)
        omega
      obtain ⟨l1, l2, l3⟩ := ih m hm1 hmk
      set c := natClogFuel b k m with hc
      have hA : b ^ (c - 1) * b = b ^ c := by
        have h3 : c = (c - 1) + 1 := by omega
        conv_rhs => rw [h3]
        ring
      refine ⟨?_, ?_, by omega⟩
      · show b ^ (c + 1 - 1) < n
        have h4 : c + 1 - 1 = c := by omega
        rw [h4]
        have h5 : (b ^ (c - 1) + 1) * b ≤ m * b := Nat.mul_le_mul_right b (by omega)
        have h6 : (b ^ (c - 1) + 1) * b = b ^ (c - 1) * b + b := by ring
        have h7 : m * b = b * m := by ring
        omega
      · show n ≤ b ^ (c + 1)
        have h5 : m * b ≤ b ^ c * b := Nat.mul_le_mul_right b l2
        have h6 : b ^ c * b = b ^ (c + 1) := by ring
        have h7 : m * b = b * m := by ring
        omega
    · have hc0 : natClogFuel b k m = 0 := natClogFuel_of_le_one b k m hm1
      rw [hc0]
      have hm0 : 0 < m := by
        rw [hm]
        exact Nat.div_pos (by omega) (by omega)
      have hmeq : m = 1 := by omega
      rw [hmeq] at hdm
      refine ⟨by simpa using (by omega : 1 < n), by simpa using (by omega : n ≤ b), by omega⟩

theorem ratIntLog_spec (b : ℕ) (hb : 1 < b) (q : ℚ) (hq : 0 < q) :
    (b : ℚ) ^ ratIntLog b q ≤ q ∧ q < (b : ℚ) ^ (ratIntLog b q + 1) := by
  have hbq : (1 : ℚ) < (b : ℚ) := by exact_mod_cast hb
  unfold ratIntLog
  by_cases h1 : 1 ≤ q
  · rw [if_pos h1]
    have hfl : 1 ≤ ⌊q⌋₊ := Nat.le_floor (by exact_mod_cast h1)
    obtain ⟨l1, l2⟩ := natLogFuel_spec b hb ⌊q⌋₊ ⌊q⌋₊ (by omega) le_rfl
    constructor
    · rw [zpow_natCast]
      calc ((b : ℚ) ^ natLog b ⌊q⌋₊) = ((b ^ natLog b ⌊q⌋₊ : ℕ) : ℚ) := by push_cast; ring
      _ ≤ (⌊q⌋₊ : ℚ) := by exact_mod_cast l1
      _ ≤ q := Nat.floor_le hq.le
    · have : ((natLog b ⌊q⌋₊ : ℤ) + 1) = ((natLog b ⌊q⌋₊ + 1 : ℕ) : ℤ) := by push_cast; ring
      rw [this, zpow_natCast]
      calc q < (⌊q⌋₊ : ℚ) + 1 := Nat.lt_floor_add_one q
      _ ≤ ((b ^ (natLog b ⌊q⌋₊ + 1) : ℕ) : ℚ) := by exact_mod_cast l2
      _ = (b : ℚ) ^ (natLog b ⌊q⌋₊ + 1) := by push_cast; ring
  · rw [if_neg h1]
    push_neg at h1
    have hqi : 1 < q⁻¹ := (one_lt_inv₀ hq).2 h1
    have hceil : 1 < ⌈q⁻¹⌉₊ := by
      rw [Nat.lt_ceil]; exact_mod_cast hqi
    obtain ⟨l1, l2, l3⟩ := natClogFuel_spec b hb ⌈q⁻¹⌉₊ ⌈q⁻¹⌉₊ hceil le_rfl
    set c := natClog b ⌈q⁻¹⌉₊ with hc
    have hup : q⁻¹ ≤ ((b ^ c : ℕ) : ℚ) :=
      le_trans (Nat.le_ceil q⁻¹) (by exact_mod_cast l2)
    have hlo : ((b ^ (c - 1) : ℕ) : ℚ) < q⁻¹ := by
      have := Nat.lt_ceil.1 l1
      exact_mod_cast this
    have hbpos : (0 : ℚ) < ((b ^ c : ℕ) : ℚ) := by positivity
    have hbpos2 : (0 : ℚ) < ((b ^ (c - 1) : ℕ) : ℚ) := by positivity
    constructor
    · rw [zpow_neg, zpow_natCast]
      have : ((b ^ c : ℕ) : ℚ)⁻¹ ≤ q := by
        rw [inv_le_comm₀ hbpos hq]
        exact hup
      calc ((b : ℚ) ^ c)⁻¹ = ((b ^ c : ℕ) : ℚ)⁻¹ := by push_cast; ring
      _ ≤ q := this
    · have hcz : (-(c : ℤ) + 1) = -((c : ℤ) - 1) := by ring
      have hcz2 : ((c : ℤ) - 1) = ((c - 1 : ℕ) : ℤ) := by
        have : 1 ≤ c := l3
        push_cast [this]
        ring
      rw [hcz, hcz2, zpow_neg, zpow_natCast]
      have : q < ((b ^ (c - 1) : ℕ) : ℚ)⁻¹ := by
        rw [lt_inv_comm₀ hq hbpos2]
        exact hlo
      calc q < ((b ^ (c - 1) : ℕ) : ℚ)⁻¹ := this
      _ = ((b : ℚ) ^ (c - 1))⁻¹ := by push_cast; ring

theorem rne_abs_le (q : ℚ) : |(rne q : ℚ) - q| ≤ 1 / 2 := by
  unfold rne
  have h0 : (⌊q⌋ : ℚ) ≤ q := Int.floor_le q
  have h1 : q < (⌊q⌋ : ℚ) + 1 := Int.lt_floor_add_one q
  by_cases hlt : q - ⌊q⌋ < 1 / 2
  · rw [if_pos hlt]
    rw [abs_sub_le_iff]
    constructor <;> linarith
  · rw [if_neg hlt]
    push_neg at hlt
    by_cases hgt : 1 / 2 < q - ⌊q⌋
    · rw [if_pos hgt]
      rw [abs_sub_le_iff]
      push_cast
      constructor <;> linarith
    · rw [if_neg hgt]
      push_neg at hgt
      have heq : q - ⌊q⌋ = 1 / 2 := le_antisymm hgt hlt
      by_cases hev : Even ⌊q⌋
      · rw [if_pos hev, abs_sub_le_iff]
        constructor <;> linarith
      · rw [if_neg hev, abs_sub_le_iff]
        push_cast
        constructor <;> linarith

theorem rne_bounds (q : ℚ) : ⌊q⌋ ≤ rne q ∧ rne q ≤ ⌊q⌋ + 1 := by
  unfold rne
  by_cases hlt : q - ⌊q⌋ < 1 / 2
  · rw [if_pos hlt]; omega
  · rw [if_neg hlt]
    by_cases hgt : 1 / 2 < q - ⌊q⌋
    · rw [if_pos hgt]; omega
    · rw [if_neg hgt]
      by_cases hev : Even ⌊q⌋
      · rw [if_pos hev]; omega
      · rw [if_neg hev]; omega

theorem isPyWs_of_digit (c : Char) (h : isDigitCh c = true) : isPyWs c = false := by
  simp only [isDigitCh, decide_eq_true_eq] at h
  obtain ⟨h1, h2⟩ := h
  simp only [isPyWs, decide_eq_true_eq, Bool.decide_or, Bool.or_eq_false_iff,
    decide_eq_false_iff_not]
  refine ⟨?_, ?_, ?_, ?_, ?_, ?_⟩ <;> · rintro rfl; revert h1; decide

theorem dropWhile_eq_self_of_all {p : Char → Bool} {s : Str}
    (h : ∀ c ∈ s, p c = false) : s.dropWhile p = s := by
  cases s with
  | nil => rfl
  | cons c t => rw [List.dropWhile_cons, h c (List.mem_cons_self c t)]; simp

theorem takeWhile_eq_self_of_all {p : Char → Bool} {s : Str}
    (h : ∀ c ∈ s, p c = true) : s.takeWhile p = s := by
  induction s with
  | nil => rfl
  | cons c t ih =>
    rw [List.takeWhile_cons, h c (List.mem_cons_self c t)]
    simp only [if_true]
    rw [ih (fun x hx => h x (List.mem_cons_of_mem c hx))]

theorem pyStrip_eq_self (s : Str) (h : ∀ c ∈ s, isPyWs c = false) : pyStrip s = s := by
  unfold pyStrip
  rw [dropWhile_eq_self_of_all h, dropWhile_eq_self_of_all (by
    intro c hc; exact h c (List.mem_reverse.1 hc)), List.reverse_reverse]

theorem scanSplit_append (body sfx : Str)
    (hlast : ∃ d, body.getLast? = some d ∧ isDigitCh d = true)
    (hsfx : ∀ c ∈ sfx, isDigitCh c = false) :
    scanSplit (body ++ sfx) = body.length := by
  obtain ⟨d, hd, hdig⟩ := hlast
  have h1 : sfx.reverse.takeWhile (fun c => !isDigitCh c) = sfx.reverse :=
    takeWhile_eq_self_of_all (by
      intro c hc
      rw [hsfx c (List.mem_reverse.1 hc)]
      rfl)
  have hb : body.reverse.takeWhile (fun c => !isDigitCh c) = [] := by
    have hh : body.reverse.head? = some d := by
      rw [List.head?_reverse]; exact hd
    cases hbr : body.reverse with
    | nil => rfl
    | cons x t =>
      rw [hbr] at hh
      simp only [List.head?_cons, Option.some_inj] at hh
      subst hh
      rw [List.takeWhile_cons, hdig]
      rfl
  have hcombined : ((body ++ sfx).reverse).takeWhile (fun c => !isDigitCh c) = sfx.reverse := by
    rw [List.reverse_append, List.takeWhile_append, h1, if_pos rfl, hb, List.append_nil]
  unfold scanSplit
  rw [hcombined]
  simp only [List.length_append, List.length_reverse]
  omega

theorem pyFloatMag_dot (ip fp : Str) (hip : ip ≠ [])
    (h1 : ∀ c ∈ ip, isDigitCh c = true) (h2 : ∀ c ∈ fp, isDigitCh c = true) :
    pyFloatMag (ip ++ '.' :: fp) =
      .ok ((parseDigitsNat ip : ℚ) + (parseDigitsNat fp : ℚ) / qnpow 10 fp.length) := by
  have htake : (ip ++ '.' :: fp).takeWhile isDigitCh = ip := by
    rw [List.takeWhile_append, takeWhile_eq_self_of_all h1, if_pos rfl, List.takeWhile_cons,
      show isDigitCh '.' = false by decide]
    simp
  simp only [pyFloatMag]
  rw [htake, List.drop_left]
  simp only
  rw [takeWhile_eq_self_of_all h2, List.drop_length]
  simp only
  rw [if_neg (by simp [hip])]

theorem pyFloatMag_int (ip : Str) (hip : ip ≠ [])
    (h1 : ∀ c ∈ ip, isDigitCh c = true) :
    pyFloatMag ip = .ok ((parseDigitsNat ip : ℚ)) := by
  simp only [pyFloatMag]
  rw [takeWhile_eq_self_of_all h1, List.drop_length]
  simp only
  rw [if_neg (by simp [hip])]
  simp only [List.length_nil]
  norm_num [parseDigitsNat, qnpow]

theorem pyFloat_of_head_digit (s : Str) (hws : ∀ c ∈ s, isPyWs c = false)
    (hhead : ∃ d, s.head? = some d ∧ isDigitCh d = true) :
    pyFloat s = pyFloatMag s := by
  obtain ⟨d, hd, hdig⟩ := hhead
  simp only [pyFloat]
  rw [pyStrip_eq_self s hws]
  cases s with
  | nil => simp at hd
  | cons c t =>
    simp only [List.head?_cons, Option.some_inj] at hd
    subst hd
    have hcp : c ≠ '+' := by rintro rfl; revert hdig; decide
    have hcm : c ≠ '-' := by rintro rfl; revert hdig; decide
    split
    · rename_i r heq
      injection heq with e1 e2
      exact absurd e1 hcp
    · rename_i r heq
      injection heq with e1 e2
      exact absurd e1 hcm
    · simp only
      cases pyFloatMag (c :: t) with
      | error e => rfl
      | ok v => simp [Except.map]

theorem pyFloat_neg_cons (s : Str) (hws : ∀ c ∈ s, isPyWs c = false) :
    pyFloat ('-' :: s) = (pyFloatMag s).map (fun v => -v) := by
  simp only [pyFloat]
  have hws2 : ∀ c ∈ '-' :: s, isPyWs c = false := by
    intro c hc
    rcases List.mem_cons.1 hc with h | h
    · subst h; rfl
    · exact hws c h
  rw [pyStrip_eq_self _ hws2]
  simp only
  cases pyFloatMag s with
  | error e => rfl
  | ok v => simp [Except.map]

theorem fixedChars_parse (n : ℕ) (X : ℤ) (hn1 : 10 ^ 5 ≤ n) (hn2 : n < 10 ^ 6)
    (hX0 : 0 ≤ X) (hX3 : X ≤ 3) :
    pyFloatMag (fixedChars n X) = .ok ((n : ℚ) / 10 ^ (5 - X.toNat)) ∧
    fixedChars n X ≠ [] ∧
    (∃ d, (fixedChars n X).getLast? = some d ∧ isDigitCh d = true) ∧
    (∀ c ∈ fixedChars n X, isDigitCh c = true ∨ c = '.') ∧
    (∃ d, (fixedChars n X).head? = some d ∧ isDigitCh d = true) := by
  have hne : n ≠ 0 := by omega
  set t := X.toNat with htdef
  have ht3 : t ≤ 3 := by omega
  have hlog : Nat.log 10 n = 5 := Nat.log_eq_of_pow_le_of_lt_pow hn1 hn2
  set ds := natDigitChars n with hds
  have hlen : ds.length = 6 := by rw [hds, natDigitChars_length n hne, hlog]
  have hdsdig : ∀ c ∈ ds, isDigitCh c = true := natDigitChars_digits n
  have hparse : parseDigitsNat ds = n := parseDigitsNat_natDigitChars n
  set ip := ds.take (t + 1) with hipdef
  set fp0 := ds.drop (t + 1) with hfp0def
  set fp := stripZeros fp0 with hfpdef
  have hiplen : ip.length = t + 1 := by
    rw [hipdef, List.length_take]
    omega
  have hipne : ip ≠ [] := by
    intro h
    rw [h] at hiplen
    simp at hiplen
  have hipdig : ∀ c ∈ ip, isDigitCh c = true :=
    fun c hc => hdsdig c (List.mem_of_mem_take hc)
  have hiphead : ∃ d, ip.head? = some d ∧ isDigitCh d = true := by
    cases hh : ip.head? with
    | none => exact absurd (List.head?_eq_none_iff.1 hh) hipne
    | some d =>
      refine ⟨d, rfl, hipdig d ?_⟩
      obtain ⟨ys, hys⟩ := List.head?_eq_some_iff.1 hh
      rw [hys]
      exact List.mem_cons_self d ys
  have hfpdig : ∀ c ∈ fp, isDigitCh c = true :=
    fun c hc => hdsdig c (List.mem_of_mem_drop (mem_stripZeros fp0 c hc))
  have hfp0len : fp0.length = 5 - t := by
    rw [hfp0def, List.length_drop, hlen]
    omega
  have hsplit : ds = ip ++ fp0 := (List.take_append_drop (t + 1) ds).symm
  -- decompose fp0 into fp and trailing zeros
  set z := fp0.length - fp.length with hzdef
  have hfp0dec : fp0 = fp ++ List.replicate z '0' := stripZeros_decomp fp0
  have hfplen : fp.length + z = 5 - t := by
    have : fp.length ≤ fp0.length := by
      conv_rhs => rw [hfp0dec]
      simp
    omega
  -- arithmetic: n = parse ip * 10 ^ (5 - t) + parse fp * 10 ^ z
  have harith : n = parseDigitsNat ip * 10 ^ (5 - t) + parseDigitsNat fp * 10 ^ z := by
    calc n = parseDigitsNat ds := hparse.symm
    _ = parseDigitsNat ip * 10 ^ fp0.length + parseDigitsNat fp0 := by
        rw [hsplit, parseDigitsNat_append]
    _ = parseDigitsNat ip * 10 ^ (5 - t) +
          (parseDigitsNat fp * 10 ^ z + parseDigitsNat (List.replicate z '0')) := by
        rw [hfp0len, hfp0dec, parseDigitsNat_append, List.length_replicate]
    _ = parseDigitsNat ip * 10 ^ (5 - t) + parseDigitsNat fp * 10 ^ z := by
        rw [parseDigitsNat_replicate_zero]
        ring
  have hXbranch : (0 : ℤ) ≤ X := hX0
  have hbody : fixedChars n X = if fp = [] then ip else ip ++ ['.'] ++ fp := by
    rw [fixedChars, if_pos hXbranch]
  by_cases hfpnil : fp = []
  · rw [hbody, if_pos hfpnil]
    have hval : (parseDigitsNat ip : ℚ) = (n : ℚ) / 10 ^ (5 - t) := by
      rw [harith, hfpnil]
      push_cast
      simp only [parseDigitsNat, List.foldl_nil, Nat.cast_zero, zero_mul, add_zero]
      rw [mul_div_assoc, div_self (by positivity : (10:ℚ) ^ (5 - t) ≠ 0), mul_one]
    refine ⟨?_, hipne, ?_, ?_, hiphead⟩
    · rw [pyFloatMag_int ip hipne hipdig, hval]
    · cases hgl : ip.getLast? with
      | none => exact absurd (List.getLast?_eq_none_iff.1 hgl) hipne
      | some d =>
        exact ⟨d, rfl, hipdig d (List.mem_of_getLast?_eq_some hgl)⟩
    · exact fun c hc => Or.inl (hipdig c hc)
  · rw [hbody, if_neg hfpnil]
    have happ : ip ++ ['.'] ++ fp = ip ++ '.' :: fp := by simp
    rw [happ]
    have hheadapp : ∃ d, (ip ++ '.' :: fp).head? = some d ∧ isDigitCh d = true := by
      obtain ⟨d, hd, hdig⟩ := hiphead
      exact ⟨d, by rw [List.head?_append, hd]; rfl, hdig⟩
    refine ⟨?_, by simp [hipne], ?_, ?_, hheadapp⟩
    · rw [pyFloatMag_dot ip fp hipne hipdig hfpdig]
      congr 1
      rw [qnpow_eq_pow]
      have h10 : (0:ℚ) < 10 ^ z := by positivity
      have hpow : (10:ℚ) ^ (5 - t) = 10 ^ fp.length * 10 ^ z := by
        rw [← pow_add, hfplen]
      rw [harith]
      push_cast
      rw [hpow]
      field_simp
      ring
    · obtain ⟨d, hd, hdz⟩ := stripZeros_last_ne_zero fp0 hfpnil
      rw [← hfpdef] at hd
      refine ⟨d, ?_, hfpdig d (List.mem_of_getLast?_eq_some hd)⟩
      rw [show ip ++ '.' :: fp = (ip ++ ['.']) ++ fp by simp, List.getLast?_append, hd]
      rfl
    · intro c hc
      rcases List.mem_append.1 hc with h | h
      · exact Or.inl (hipdig c h)
      · rcases List.mem_cons.1 h with h | h
        · exact Or.inr h
        · exact Or.inl (hfpdig c h)

theorem formatG_spec (m : ℚ) (h1 : 1 ≤ |m|) (h2 : |m| < 1000) :
    ∃ v : ℚ, pyFloat (formatG m) = .ok v ∧ |v - m| ≤ |m| / 200000 ∧
      (∃ d, (formatG m).getLast? = some d ∧ isDigitCh d = true) ∧
      (∀ c ∈ formatG m, isDigitCh c = true ∨ c = '.' ∨ c = '-') := by
  have hm0 : m ≠ 0 := by
    intro h
    rw [h] at h1
    simp at h1
    linarith
  have ha : 0 < |m| := by linarith
  obtain ⟨hlo, hhi⟩ := ratIntLog_spec 10 (by norm_num) |m| ha
  have hcast : ((10:ℕ):ℚ) = 10 := by norm_num
  rw [hcast] at hlo hhi
  set X0 := ratIntLog 10 |m| with hX0def
  have hX0nn : 0 ≤ X0 := by
    by_contra hneg
    push_neg at hneg
    have hle : (10:ℚ) ^ (X0 + 1) ≤ 10 ^ (0:ℤ) := zpow_le_zpow_right₀ (by norm_num) (by omega)
    simp at hle
    linarith
  have hX0le : X0 ≤ 2 := by
    by_contra hgt
    push_neg at hgt
    have hle : (10:ℚ) ^ (3:ℤ) ≤ 10 ^ X0 := zpow_le_zpow_right₀ (by norm_num) (by omega)
    norm_num at hle
    linarith
  set aa := |m| * (10:ℚ) ^ ((5:ℤ) - X0) with haadef
  have hp1 : (0:ℚ) < (10:ℚ) ^ ((5:ℤ) - X0) := by positivity
  have h5 : (100000:ℚ) ≤ aa := by
    have hq1 : (10:ℚ) ^ X0 * (10:ℚ) ^ ((5:ℤ) - X0) ≤ aa := by
      rw [haadef]
      exact mul_le_mul_of_nonneg_right hlo hp1.le
    rw [← zpow_add₀ (by norm_num : (10:ℚ) ≠ 0)] at hq1
    norm_num at hq1
    exact hq1
  have h6 : aa < 1000000 := by
    have hq1 : aa < (10:ℚ) ^ (X0 + 1) * (10:ℚ) ^ ((5:ℤ) - X0) := by
      rw [haadef]
      exact mul_lt_mul_of_pos_right hhi hp1
    rw [← zpow_add₀ (by norm_num : (10:ℚ) ≠ 0)] at hq1
    have he : X0 + 1 + (5 - X0) = (6:ℤ) := by ring
    rw [he] at hq1
    norm_num at hq1
    exact hq1
  set n0 := rne aa with hn0def
  obtain ⟨hfl1, hfl2⟩ := rne_bounds aa
  have herr : |(n0:ℚ) - aa| ≤ 1 / 2 := rne_abs_le aa
  have hn0lo : (100000:ℤ) ≤ n0 :=
    le_trans (Int.le_floor.2 (by exact_mod_cast h5)) hfl1
  have hn0hi : n0 ≤ 1000000 := by
    have hl : ⌊aa⌋ < (1000000:ℤ) := Int.floor_lt.2 (by exact_mod_cast h6)
    omega
  have hmabs : aa * (10:ℚ) ^ (X0 - 5) = |m| := by
    rw [haadef, mul_assoc, ← zpow_add₀ (by norm_num : (10:ℚ) ≠ 0)]
    norm_num
  have main : ∀ nn XX : ℤ, 100000 ≤ nn → nn < 1000000 → 0 ≤ XX → XX ≤ 3 →
      (nn:ℚ) * (10:ℚ) ^ (XX - 5) = (n0:ℚ) * (10:ℚ) ^ (X0 - 5) →
      ∃ v : ℚ,
        pyFloat (if m < 0 then '-' :: fixedChars nn.toNat XX else fixedChars nn.toNat XX) =
          .ok v ∧
        |v - m| ≤ |m| / 200000 ∧
        (∃ d, (if m < 0 then '-' :: fixedChars nn.toNat XX else
            fixedChars nn.toNat XX).getLast? = some d ∧ isDigitCh d = true) ∧
        (∀ c ∈ (if m < 0 then '-' :: fixedChars nn.toNat XX else fixedChars nn.toNat XX),
          isDigitCh c = true ∨ c = '.' ∨ c = '-') := by
    intro nn XX hnn1 hnn2 hXX1 hXX2 hvid
    obtain ⟨hmag, hbne, hblast, hbchars, hbhead⟩ := fixedChars_parse nn.toNat XX
      (by norm_num; omega) (by norm_num; omega) hXX1 hXX2
    -- the parsed magnitude equals nn * 10^(XX-5)
    have hmagval : ((nn.toNat : ℕ) : ℚ) / 10 ^ (5 - XX.toNat) = (nn:ℚ) * (10:ℚ) ^ (XX - 5) := by
      have hge : (0:ℤ) ≤ nn := by omega
      have hc1 : ((nn.toNat : ℕ) : ℚ) = (nn : ℚ) := by
        calc ((nn.toNat : ℕ) : ℚ) = ((nn.toNat : ℤ) : ℚ) := by push_cast; ring
        _ = (nn : ℚ) := by rw [Int.toNat_of_nonneg hge]
      have hc2 : ((10:ℚ) ^ (5 - XX.toNat : ℕ)) = (10:ℚ) ^ ((5:ℤ) - XX) := by
        rw [← zpow_natCast]
        congr 1
        omega
      rw [hc1, hc2, div_eq_mul_inv, ← zpow_neg]
      congr 1
      ring
    have hverr : |(nn:ℚ) * (10:ℚ) ^ (XX - 5) - abs m| ≤ |m| / 200000 := by
      rw [hvid, ← hmabs]
      have heq : (n0:ℚ) * (10:ℚ) ^ (X0 - 5) - aa * (10:ℚ) ^ (X0 - 5) =
          ((n0:ℚ) - aa) * (10:ℚ) ^ (X0 - 5) := by ring
      rw [heq, abs_mul, abs_of_pos (by positivity : (0:ℚ) < (10:ℚ) ^ (X0 - 5))]
      have hb1 : |(n0:ℚ) - aa| * (10:ℚ) ^ (X0 - 5) ≤ (1/2) * (10:ℚ) ^ (X0 - 5) :=
        mul_le_mul_of_nonneg_right herr (by positivity)
      have hb2 : (1/2) * (10:ℚ) ^ (X0 - 5) ≤ aa * (10:ℚ) ^ (X0 - 5) / 200000 := by
        have hx : (10:ℚ) ^ X0 ≤ |m| := hlo
        rw [hmabs]
        have hy : (10:ℚ) ^ (X0 - 5) * 100000 = (10:ℚ) ^ X0 := by
          rw [show (100000:ℚ) = (10:ℚ) ^ (5:ℤ) by norm_num,
            ← zpow_add₀ (by norm_num : (10:ℚ) ≠ 0)]
          norm_num
        linarith
      linarith
    have hwsbody : ∀ c ∈ fixedChars nn.toNat XX, isPyWs c = false := by
      intro c hc
      rcases hbchars c hc with h | h
      · exact isPyWs_of_digit c h
      · rw [h]; rfl
    by_cases hneg : m < 0
    · rw [if_pos hneg]
      refine ⟨-((nn:ℚ) * (10:ℚ) ^ (XX - 5)), ?_, ?_, ?_, ?_⟩
      · rw [pyFloat_neg_cons _ hwsbody, hmag]
        simp only [Except.map]
        rw [hmagval]
      · have h9 : -((nn:ℚ) * (10:ℚ) ^ (XX - 5)) - m =
            -(((nn:ℚ) * (10:ℚ) ^ (XX - 5)) - |m|) := by
          rw [abs_of_neg hneg]; ring
        rw [h9, abs_neg]
        exact hverr
      · obtain ⟨d, hd, hdig⟩ := hblast
        refine ⟨d, ?_, hdig⟩
        rw [show ('-' :: fixedChars nn.toNat XX) = ['-'] ++ fixedChars nn.toNat XX from rfl,
          List.getLast?_append, hd]
        rfl
      · intro c hc
        rcases List.mem_cons.1 hc with h | h
        · exact Or.inr (Or.inr h)
        · rcases hbchars c h with hq1 | hq1
          · exact Or.inl hq1
          · exact Or.inr (Or.inl hq1)
    · rw [if_neg hneg]
      have hmm : |m| = m := abs_of_nonneg (by linarith [not_lt.1 hneg])
      refine ⟨(nn:ℚ) * (10:ℚ) ^ (XX - 5), ?_, ?_, hblast, ?_⟩
      · rw [pyFloat_of_head_digit _ hwsbody hbhead, hmag, hmagval]
      · rw [hmm] at hverr ⊢
        exact hverr
      · intro c hc
        rcases hbchars c hc with hq1 | hq1
        · exact Or.inl hq1
        · exact Or.inr (Or.inl hq1)
  by_cases hcarry : n0 = 1000000
  · have hout : formatG m =
        if m < 0 then '-' :: fixedChars (100000:ℤ).toNat (X0 + 1)
        else fixedChars (100000:ℤ).toNat (X0 + 1) := by
      simp only [formatG]
      rw [if_neg hm0, qzpow_eq_zpow, ← hX0def, ← haadef, ← hn0def, if_pos hcarry]
      simp only
      rw [if_pos (⟨by omega, by omega⟩ : (-4:ℤ) ≤ X0 + 1 ∧ X0 + 1 < 6)]
    rw [hout]
    apply main 100000 (X0 + 1) (by norm_num) (by norm_num) (by omega) (by omega)
    rw [hcarry]
    have he1 : X0 + 1 - 5 = (X0 - 5) + 1 := by ring
    rw [he1, zpow_add₀ (by norm_num : (10:ℚ) ≠ 0)]
    push_cast
    ring
  · have hout : formatG m =
        if m < 0 then '-' :: fixedChars n0.toNat X0 else fixedChars n0.toNat X0 := by
      simp only [formatG]
      rw [if_neg hm0, qzpow_eq_zpow, ← hX0def, ← haadef, ← hn0def, if_neg hcarry]
      simp only
      rw [if_pos (⟨by omega, by omega⟩ : (-4:ℤ) ≤ X0 ∧ X0 < 6)]
    rw [hout]
    apply main n0 X0 hn0lo (by omega) hX0nn (by omega)
    rfl

theorem scan_eng_split (body sfx : Str)
    (hws : ∀ c ∈ body, isPyWs c = false) (hws2 : ∀ c ∈ sfx, isPyWs c = false)
    (hlast : ∃ d, body.getLast? = some d ∧ isDigitCh d = true)
    (hsfx : ∀ c ∈ sfx, isDigitCh c = false) :
    scan_eng (body ++ sfx) =
      (pyFloat body) >>= (fun f =>
        match sfx with
        | [] => .ok f
        | c :: rest =>
          if c ∈ (['f', 'p', 'n', 'u', 'µ', 'm', 'k', 'K'] : List Char) then
            .ok (f * engMult c)
          else if ((c :: rest).take 3).map pyUpper = str "MEG" then .ok (f * 1000000)
          else .ok f) := by
  simp only [scan_eng]
  rw [pyStrip_eq_self _ (by
    intro c hc
    rcases List.mem_append.1 hc with h | h
    · exact hws c h
    · exact hws2 c h)]
  rw [scanSplit_append body sfx hlast hsfx, List.take_left, List.drop_left]
  rfl

theorem near_bound (q m v k : ℚ) (hk : 0 < k) (hqm : q = m * k)
    (hv : |v - m| ≤ |m| / 200000) : |v * k - q| ≤ |q| / 100000 := by
  rw [hqm]
  have h1 : v * k - m * k = (v - m) * k := by ring
  rw [h1, abs_mul, abs_mul, abs_of_pos hk]
  have h2 : |v - m| * k ≤ |m| / 200000 * k := mul_le_mul_of_nonneg_right hv hk.le
  have h3 : (0:ℚ) ≤ |m| * k := by positivity
  calc |v - m| * k ≤ |m| / 200000 * k := h2
  _ = |m| * k / 200000 := by ring
  _ ≤ |m| * k / 100000 := by linarith

theorem scan_format_eng_general (q : ℚ) (hq0 : q ≠ 0)
    (he1 : -5 ≤ ratIntLog 1000 |q|) (he2 : ratIntLog 1000 |q| ≤ 2) :
    ∃ r : ℚ, scan_eng (format_eng q) = .ok r ∧ |r - q| ≤ |q| / 100000 := by
  have ha : 0 < |q| := abs_pos.2 hq0
  obtain ⟨hlo, hhi⟩ := ratIntLog_spec 1000 (by norm_num) |q| ha
  have hcast : ((1000:ℕ):ℚ) = 1000 := by norm_num
  rw [hcast] at hlo hhi
  obtain ⟨e, he⟩ : ∃ e, ratIntLog 1000 |q| = e := ⟨_, rfl⟩
  rw [he] at hlo hhi he1 he2
  have hmantissa : ∀ k : ℤ, k = e →
      1 ≤ |q * (1000:ℚ) ^ (-k)| ∧ |q * (1000:ℚ) ^ (-k)| < 1000 ∧
        q = q * (1000:ℚ) ^ (-k) * (1000:ℚ) ^ k := by
    intro k hk
    subst hk
    have hpos : (0:ℚ) < (1000:ℚ) ^ (-k) := by positivity
    have habs : |q * (1000:ℚ) ^ (-k)| = |q| * (1000:ℚ) ^ (-k) := by
      rw [abs_mul, abs_of_pos hpos]
    refine ⟨?_, ?_, ?_⟩
    · rw [habs]
      have hx := mul_le_mul_of_nonneg_right hlo hpos.le
      rw [← zpow_add₀ (by norm_num : (1000:ℚ) ≠ 0), show k + -k = (0:ℤ) by ring,
        zpow_zero] at hx
      exact hx
    · rw [habs]
      have hx := mul_lt_mul_of_pos_right hhi hpos
      rw [← zpow_add₀ (by norm_num : (1000:ℚ) ≠ 0), show k + 1 + -k = (1:ℤ) by ring,
        zpow_one] at hx
      exact hx
    · rw [mul_assoc, ← zpow_add₀ (by norm_num : (1000:ℚ) ≠ 0),
        show -k + k = (0:ℤ) by ring, zpow_zero, mul_one]
  have suffixCase : ∀ (k : ℤ) (c : Char), k = e →
      format_eng q = formatG (q * (1000:ℚ) ^ (-k)) ++ [c] →
      c ∈ (['f', 'p', 'n', 'u', 'µ', 'm', 'k', 'K'] : List Char) →
      isDigitCh c = false → isPyWs c = false →
      engMult c = (1000:ℚ) ^ k →
      ∃ r : ℚ, scan_eng (format_eng q) = .ok r ∧ |r - q| ≤ |q| / 100000 := by
    intro k c hk hout hcmem hcdig hcws hcmult
    obtain ⟨h1m, h2m, hqm⟩ := hmantissa k hk
    obtain ⟨v, hpf, hverr, hlast, hchars⟩ := formatG_spec _ h1m h2m
    have hws : ∀ x ∈ formatG (q * (1000:ℚ) ^ (-k)), isPyWs x = false := by
      intro x hx
      rcases hchars x hx with h | h | h
      · exact isPyWs_of_digit x h
      · rw [h]; rfl
      · rw [h]; rfl
    refine ⟨v * engMult c, ?_, ?_⟩
    · rw [hout, scan_eng_split _ [c] hws
        (by intro x hx; rcases List.mem_cons.1 hx with h | h;
            · subst h; exact hcws
            · cases h)
        hlast
        (by intro x hx; rcases List.mem_cons.1 hx with h | h;
            · subst h; exact hcdig
            · cases h), hpf]
      simp only [Bind.bind, Except.bind]
      rw [if_pos hcmem]
    · rw [hcmult]
      exact near_bound q _ v _ (by positivity) hqm hverr
  interval_cases e
  · -- e = -5, suffix 'f'
    refine suffixCase (-5) 'f' rfl ?_ (by decide) (by decide) (by decide)
      (by rw [show engMult 'f' = (1/1000000000000000 : ℚ) from rfl]; norm_num)
    simp only [format_eng]
    rw [if_neg hq0, he, if_pos (by decide : (-5:ℤ) ≤ -5 ∧ (-5:ℤ) < 0), qzpow_eq_zpow]
    rfl
  · -- e = -4, suffix 'p'
    refine suffixCase (-4) 'p' rfl ?_ (by decide) (by decide) (by decide)
      (by rw [show engMult 'p' = (1/1000000000000 : ℚ) from rfl]; norm_num)
    simp only [format_eng]
    rw [if_neg hq0, he, if_pos (by decide : (-5:ℤ) ≤ -4 ∧ (-4:ℤ) < 0), qzpow_eq_zpow]
    rfl
  · -- e = -3, suffix 'n'
    refine suffixCase (-3) 'n' rfl ?_ (by decide) (by decide) (by decide)
      (by rw [show engMult 'n' = (1/1000000000 : ℚ) from rfl]; norm_num)
    simp only [format_eng]
    rw [if_neg hq0, he, if_pos (by decide : (-5:ℤ) ≤ -3 ∧ (-3:ℤ) < 0), qzpow_eq_zpow]
    rfl
  · -- e = -2, suffix 'u'
    refine suffixCase (-2) 'u' rfl ?_ (by decide) (by decide) (by decide)
      (by rw [show engMult 'u' = (1/1000000 : ℚ) from rfl]; norm_num)
    simp only [format_eng]
    rw [if_neg hq0, he, if_pos (by decide : (-5:ℤ) ≤ -2 ∧ (-2:ℤ) < 0), qzpow_eq_zpow]
    rfl
  · -- e = -1, suffix 'm'
    refine suffixCase (-1) 'm' rfl ?_ (by decide) (by decide) (by decide)
      (by rw [show engMult 'm' = (1/1000 : ℚ) from rfl]; norm_num)
    simp only [format_eng]
    rw [if_neg hq0, he, if_pos (by decide : (-5:ℤ) ≤ -1 ∧ (-1:ℤ) < 0), qzpow_eq_zpow]
    rfl
  · -- e = 0, no suffix
    have h1q : 1 ≤ |q| := by
      have : (1000:ℚ) ^ (0:ℤ) = 1 := zpow_zero 1000
      linarith [hlo, this.symm.le]
    have h2q : |q| < 1000 := by
      have : (1000:ℚ) ^ ((0:ℤ) + 1) = 1000 := by norm_num
      linarith [hhi]
    obtain ⟨v, hpf, hverr, hlast, hchars⟩ := formatG_spec q h1q h2q
    have hws : ∀ x ∈ formatG q, isPyWs x = false := by
      intro x hx
      rcases hchars x hx with h | h | h
      · exact isPyWs_of_digit x h
      · rw [h]; rfl
      · rw [h]; rfl
    have hout : format_eng q = formatG q := by
      simp only [format_eng]
      rw [if_neg hq0, he]
      rw [if_neg (by decide : ¬((-5:ℤ) ≤ 0 ∧ (0:ℤ) < 0)), if_pos rfl]
    refine ⟨v, ?_, ?_⟩
    · rw [hout, ← List.append_nil (formatG q),
        scan_eng_split _ [] hws (by simp) hlast (by simp), hpf]
      rfl
    · calc |v - q| ≤ |q| / 200000 := hverr
      _ ≤ |q| / 100000 := by linarith
  · -- e = 1, suffix 'k'
    refine suffixCase 1 'k' rfl ?_ (by decide) (by decide) (by decide)
      (by rw [show engMult 'k' = (1000 : ℚ) from rfl]; norm_num)
    simp only [format_eng]
    rw [if_neg hq0, he, if_neg (by decide : ¬((-5:ℤ) ≤ 1 ∧ (1:ℤ) < 0)),
      if_neg (by decide : ¬(1:ℤ) = 0), if_pos rfl, qzpow_eq_zpow]
  · -- e = 2, suffix Meg
    obtain ⟨h1m, h2m, hqm⟩ := hmantissa 2 rfl
    obtain ⟨v, hpf, hverr, hlast, hchars⟩ := formatG_spec _ h1m h2m
    have hws : ∀ x ∈ formatG (q * (1000:ℚ) ^ (-(2:ℤ))), isPyWs x = false := by
      intro x hx
      rcases hchars x hx with h | h | h
      · exact isPyWs_of_digit x h
      · rw [h]; rfl
      · rw [h]; rfl
    have hout : format_eng q = formatG (q * (1000:ℚ) ^ (-(2:ℤ))) ++ str "Meg" := by
      simp only [format_eng]
      rw [if_neg hq0, he, if_neg (by decide : ¬((-5:ℤ) ≤ 2 ∧ (2:ℤ) < 0)),
        if_neg (by decide : ¬(2:ℤ) = 0), if_neg (by decide : ¬(2:ℤ) = 1), if_pos rfl,
        qzpow_eq_zpow]
    refine ⟨v * 1000000, ?_, ?_⟩
    · rw [hout, scan_eng_split _ (str "Meg") hws (by decide) hlast (by decide), hpf]
      rfl
    · rw [show (1000000:ℚ) = (1000:ℚ) ^ (2:ℤ) by norm_num]
      exact near_bound q _ v _ (by positivity) hqm hverr

/-- C8: the value codec is a near-inverse pair: for every non-zero value
whose engineering exponent `floor(log1000 |q|)` lies in the suffix range
`[-5, 2]` (the non-overflowing magnitudes that take the `'{:g}'` + suffix
path), `scan_eng (format_eng q)` succeeds and returns a value within a
relative error of `10^-5`; and the representative values behave as stated:
`format_eng 3300 = "3.3k"`, `scan_eng "3.3k" = 3300`,
`format_eng 1000000 = "1Meg"`, `scan_eng "1Meg" = 1000000`,
`format_eng 0 = "0"`. -/
theorem value_codec_near_inverse :
    (∀ q : ℚ, q ≠ 0 → -5 ≤ ratIntLog 1000 |q| → ratIntLog 1000 |q| ≤ 2 →
      ∃ r : ℚ, scan_eng (format_eng q) = .ok r ∧ |r - q| ≤ |q| / 100000) ∧
    format_eng 3300 = str "3.3k" ∧ scan_eng (str "3.3k") = .ok 3300 ∧
    format_eng 1000000 = str "1Meg" ∧ scan_eng (str "1Meg") = .ok 1000000 ∧
    format_eng 0 = str "0" :=
  ⟨scan_format_eng_general, by with_unfolding_all rfl, by with_unfolding_all rfl,
   by with_unfolding_all rfl, by with_unfolding_all rfl, by with_unfolding_all rfl⟩

/-- C8 (witness): the near-inverse property applied at the concrete value
`3300` (engineering exponent `1`), with all hypotheses discharged there. -/
theorem value_codec_near_inverse_witness :
    (3300:ℚ) ≠ 0 ∧ -5 ≤ ratIntLog 1000 |(3300:ℚ)| ∧ ratIntLog 1000 |(3300:ℚ)| ≤ 2 ∧
      ∃ r : ℚ, scan_eng (format_eng 3300) = .ok r ∧ |r - 3300| ≤ |(3300:ℚ)| / 100000 := by
  have h : ratIntLog 1000 |(3300:ℚ)| = 1 := by with_unfolding_all rfl
  refine ⟨by norm_num, by rw [h]; norm_num, by rw [h]; norm_num, ?_⟩
  exact value_codec_near_inverse.1 3300 (by norm_num) (by rw [h]; norm_num)
    (by rw [h]; norm_num)

end Spicelib
